import Mathlib

/-!
Shallow embedding of the Minecells board-generation core
(`MainPrograms/BoardGeneratorPrograms` and `MainPrograms/Solvers`).

Modelling conventions:
* A tile position is a pair of integers `(row, col)`; Python sentinel
  tuples such as `(-1, -1)` are representable directly.
* A board is a total function `Pos → ℤ`; the Python board is the
  restriction to in-bounds positions, and every Python write is an
  explicit functional update.
* Python `set` values become `Finset Pos`.  Where the source iterates a
  set (an unspecified order), the embedding iterates the row-major cell
  list filtered by membership, a fixed determinization of that order.
* `random.shuffle` / `random.choice` / `random.randrange` are modelled
  by oracle parameters (`shuffle`, `pick`, `fresh`), constrained in the
  theorems only by what the library guarantees (a shuffle permutes, a
  choice of a nonempty set lands in the set, a draw avoiding an exclusion
  set lands outside it).
* Python float matrices are modelled over `ℚ`; the source's
  `int(x) == x` re-coercion is value-preserving and therefore dropped.
* Loops without a structural decreasing argument take a fuel parameter
  and return `none` on exhaustion; a Python `IndexError` (running off
  the candidate list) is also `none`.
-/

namespace Minecells

abbrev Pos : Type := ℤ × ℤ

abbrev BoardF : Type := Pos → ℤ

/-- Python `[(x, y) for x in [-1, 0, 1] for y in [-1, 0, 1]]` as built by
`BoardGenerator.__init__` and `MatrixSolver.__init__` (nine offsets,
including `(0, 0)`). -/
def rawDirections : List Pos :=
  ([-1, 0, 1] : List ℤ).flatMap fun x => ([-1, 0, 1] : List ℤ).map fun y => (x, y)

/-- Directions list of `BoardGenerator` at `_generate_board` time: the raw
list is aliased into `Seed.__init__`, which appends a second `(0, 0)`;
`BoardGenerator.__init__` then removes one occurrence.  One `(0, 0)` is
left in the list. -/
def boardGenDirections : List Pos :=
  (rawDirections ++ [(0, 0)]).erase (0, 0)

/-- Directions list of the solvers (`MatrixSolver.__init__` builds its own
list and removes `(0, 0)`): the eight proper neighbours. -/
def solverDirections : List Pos :=
  rawDirections.erase (0, 0)

/-- Python `self._orthogonal_directions` of `LogicalSolver`. -/
def orthogonalDirections : List Pos := [(1, 0), (-1, 0), (0, 1), (0, -1)]

/-- Bounds check `0 <= row < n_rows and 0 <= col < n_cols`. -/
def inBounds (nRows nCols : ℕ) (p : Pos) : Bool :=
  decide (0 ≤ p.1 ∧ p.1 < (nRows : ℤ) ∧ 0 ≤ p.2 ∧ p.2 < (nCols : ℤ))

/-- Row-major list of all board cells, the canonical iteration order used
to determinize Python set iteration. -/
def cellsList (nRows nCols : ℕ) : List Pos :=
  (List.range nRows).flatMap fun (r : ℕ) =>
    (List.range nCols).map fun (c : ℕ) => ((r : ℤ), (c : ℤ))

/-- Finset of all board cells. -/
def allCells (nRows nCols : ℕ) : Finset Pos := (cellsList nRows nCols).toFinset

/-- `BoardGenerator._get_adjacent_tiles`: in-bounds translates of the
(generator) directions list. -/
def adjacent_tiles (nRows nCols : ℕ) (p : Pos) : Finset Pos :=
  ((boardGenDirections.map fun d => (p.1 + d.1, p.2 + d.2)).filter
    (fun q => inBounds nRows nCols q)).toFinset

/-- `LogicalSolver._get_adjacent_tiles`: in-bounds translates of the
solver directions list (the eight proper neighbours). -/
def solver_adjacent_tiles (nRows nCols : ℕ) (p : Pos) : Finset Pos :=
  ((solverDirections.map fun d => (p.1 + d.1, p.2 + d.2)).filter
    (fun q => inBounds nRows nCols q)).toFinset

/-- `LogicalSolver.get_orthogonal_adj`. -/
def get_orthogonal_adj (nRows nCols : ℕ) (p : Pos) : Finset Pos :=
  ((orthogonalDirections.map fun d => (p.1 + d.1, p.2 + d.2)).filter
    (fun q => inBounds nRows nCols q)).toFinset

/-! ### Seed: validation and candidate generation (`Seed.py`) -/

/-- Python `string.digits + string.ascii_letters`, the population
`random.choices` draws fresh seed characters from. -/
def seedPopulation : List Char :=
  "0123456789abcdefghijklmnopqrstuvwxyzABCDEFGHIJKLMNOPQRSTUVWXYZ".toList

/-- Characters accepted by seed validation: the population plus a space. -/
def seedAllowedChars : List Char := seedPopulation ++ [' ']

/-- `Seed._gen_seed`: ten draws from the population; the draw at each of
the ten slots is an oracle index reduced modulo the population size. -/
def gen_seed (choose : ℕ → ℕ) : String :=
  String.mk ((List.range 10).map fun i =>
    seedPopulation.getD (choose i % seedPopulation.length) ' ')

/-- Validation condition of `Seed.__init__` for a nonempty seed:
`len(seed) > 10 or any(char not in digits+letters+" " for char in seed)`. -/
def seedInvalid (seed : String) : Bool :=
  decide (10 < seed.length) || seed.data.any (fun c => !(decide (c ∈ seedAllowedChars)))

/-- `Seed.__init__` restricted to its seed handling: empty seed strings
draw a fresh seed, nonempty ones are validated; `.error` models the
raised `ValueError`.  The stored value is what `Seed.get_seed` returns. -/
def seedInit (seed : String) (choose : ℕ → ℕ) : Except String String :=
  if seed = "" then .ok (gen_seed choose)
  else if seedInvalid seed then .error ("Invalid seed: " ++ seed)
  else .ok seed

/-- Closed neighbourhood of the start position excluded by
`Seed.generate_mines_list` (the directions list held by `Seed` contains
`(0, 0)`, so the start tile itself is excluded too). -/
def startNeighbourhood (startPos : Pos) : Finset Pos :=
  ((rawDirections ++ [(0, 0)]).map fun (d : Pos) => (d.1 + startPos.1, d.2 + startPos.2)).toFinset

/-- Admissible extra positions of `Seed.generate_mines_list`: every
board position outside `excludes`, the closed start neighbourhood and
`includes`. -/
def admissiblePositions (nRows nCols : ℕ) (startPos : Pos)
    (includes : List Pos) (excludes : Finset Pos) : List Pos :=
  (cellsList nRows nCols).filter
    (fun p => !(decide (p ∈ excludes ∪ startNeighbourhood startPos)) &&
      !(decide (p ∈ includes)))

/-- `Seed.generate_mines_list`: the tiles of `includes` first, then a
shuffled list of the admissible extra positions.  The shuffle oracle
stands for the repeated `random.shuffle` calls. -/
def generate_mines_list (nRows nCols : ℕ) (startPos : Pos)
    (includes : List Pos) (excludes : Finset Pos)
    (shuffle : List Pos → List Pos) : List Pos :=
  includes ++ shuffle (admissiblePositions nRows nCols startPos includes excludes)

/-- Modelled from the spec: the spec's Candidate Generator fails with
`Infeasible` on first use when `|admissible| + |includes| < M`; the
source `Seed.generate_mines_list` contains no such check, so this
definition follows the spec's words for comparison. -/
def generate_mines_list_spec (nRows nCols : ℕ) (startPos : Pos)
    (includes : List Pos) (excludes : Finset Pos)
    (shuffle : List Pos → List Pos) (minecount : ℕ) : Except String (List Pos) :=
  let admissible := admissiblePositions nRows nCols startPos includes excludes
  if admissible.length + includes.length < minecount then .error "Infeasible"
  else .ok (includes ++ shuffle admissible)

/-! ### Board assembly (`BoardGenerator._generate_board`) -/

/-- Effect of placing one mine at `p`: the cell becomes `-1` and every
adjacent non-mine cell is incremented (the adjacency function is a
parameter because `SpaceBoardGenerator` overrides it). -/
def placeMine (adj : Pos → Finset Pos) (b : BoardF) (p : Pos) : BoardF :=
  fun q =>
    if q = p then -1
    else if q ∈ adj p ∧ b q ≠ -1 then b q + 1
    else b q

/-- Mine-placement loop of `_generate_board`: walk the candidate list,
placing a mine at each position whose cell is not already `-1`, until
`minecount` mines are placed.  Returns the board, the mine set and the
number of list entries consumed (the final value of `index`); `none`
models the `IndexError` raised when the list runs out. -/
def generateBoardGo (adj : Pos → Finset Pos) (minecount : ℕ) :
    List Pos → Finset Pos → BoardF → ℕ → Option (BoardF × Finset Pos × ℕ)
  | ps, mines, b, k =>
    if minecount ≤ mines.card then some (b, mines, k)
    else
      match ps with
      | [] => none
      | p :: rest =>
        if b p ≠ -1 then
          generateBoardGo adj minecount rest (insert p mines) (placeMine adj b p) (k + 1)
        else
          generateBoardGo adj minecount rest mines b (k + 1)

/-- `BoardGenerator._generate_board`: all-zero board, then the placement
loop over the candidate list. -/
def generate_board (nRows nCols minecount : ℕ) (minePositions : List Pos) :
    Option (BoardF × Finset Pos) :=
  (generateBoardGo (adjacent_tiles nRows nCols) minecount minePositions ∅ (fun _ => 0) 0).map
    fun r => (r.1, r.2.1)

/-! ### Space boards (`SpaceBoardGenerator._generate_board_space`) -/

/-- `SpaceBoardGenerator._get_adjacent_tiles`: like the generator
adjacency but filtering out cells holding `-3` on `self._board` (the
board attribute, freshly reset to all `-2` when `_generate_board_space`
runs, so the filter is passed explicitly as `prev`). -/
def space_get_adjacent_tiles (nRows nCols : ℕ) (prev : BoardF) (p : Pos) : Finset Pos :=
  ((boardGenDirections.map fun d => (p.1 + d.1, p.2 + d.2)).filter
    (fun q => inBounds nRows nCols q && !(decide (prev q = -3)))).toFinset

/-- Space-placement loop of `_generate_board_space`: the `index` cursor
continues from where the mine loop stopped, so the walk starts on the
`drop`ped suffix of the fresh candidate list.  A space is placed at each
position whose cell still holds a clue (`>= 0`), until `space_count`
spaces are placed; `none` models the `IndexError` when the list (or
fuel) runs out. -/
def spacePhaseGo (spaceCount : ℕ) :
    List Pos → Finset Pos → BoardF → Option (BoardF × Finset Pos)
  | ps, spaces, b =>
    if spaceCount ≤ spaces.card then some (b, spaces)
    else
      match ps with
      | [] => none
      | p :: rest =>
        if 0 ≤ b p then
          spacePhaseGo spaceCount rest (insert p spaces)
            (fun q => if q = p then -3 else b q)
        else
          spacePhaseGo spaceCount rest spaces b

/-- Fresh candidate sequence of the second pass of
`_generate_board_space`: `generate_mines_list(includes=space_positions,
excludes=mines)`. -/
def spaceCandidates (nRows nCols : ℕ) (startPos : Pos)
    (spacePositions : List Pos) (mines : Finset Pos)
    (shuffle : List Pos → List Pos) : List Pos :=
  generate_mines_list nRows nCols startPos spacePositions mines shuffle

/-- `SpaceBoardGenerator._generate_board_space`: mine placement (with the
space-aware adjacency over the reset `self._board`, all `-2`), then the
space pass over a fresh candidate list, resumed at the stale `index`. -/
def generate_board_space (nRows nCols minecount spaceCount : ℕ) (startPos : Pos)
    (minePositions : List Pos) (spacePositions : List Pos)
    (shuffle : List Pos → List Pos) :
    Option (BoardF × Finset Pos × Finset Pos) :=
  match generateBoardGo (space_get_adjacent_tiles nRows nCols (fun _ => -2)) minecount
      minePositions ∅ (fun _ => 0) 0 with
  | none => none
  | some (b, mines, k) =>
    let candidates := spaceCandidates nRows nCols startPos spacePositions mines shuffle
    match spacePhaseGo spaceCount (candidates.drop k) ∅ b with
    | none => none
    | some (b2, spaces) => some (b2, mines, spaces)

/-! ### Chain boards (`ChainBoardGenerator._generate_board`) -/

/-- `Seed.give_random_tile` restricted to its `select_from` branch: a
choice from a nonempty set via the oracle `pick` (indexed by a running
call counter), and the `(-1, -1)` sentinel on an empty set. -/
def give_random_tile (pick : ℕ → Finset Pos → Pos) (n : ℕ) (selectFrom : Finset Pos) : Pos :=
  if selectFrom = ∅ then (-1, -1) else pick n selectFrom

/-- Inner retry loop of `ChainBoardGenerator._generate_board`: while a
sentinel is held, record the failed draws as locally safe and redraw
`mine_one` from the admissible set and `mine_two` from the orthogonal
neighbours of `mine_one`. -/
def chainInner (pick : ℕ → Finset Pos → Pos) (nRows nCols : ℕ)
    (selectFrom exclusions : Finset Pos) :
    ℕ → Pos → Pos → Finset Pos → ℕ → Option (Pos × Pos × Finset Pos × ℕ)
  | 0, _, _, _, _ => none
  | fuel + 1, m1, m2, locSafes, n =>
    if m2 = ((-1 : ℤ), (-1 : ℤ)) ∨ m1 = ((-1 : ℤ), (-1 : ℤ)) then
      let L := insert m2 (insert m1 locSafes)
      let m1n := give_random_tile pick n (selectFrom \ L)
      let m2n := give_random_tile pick (n + 1)
        ((get_orthogonal_adj nRows nCols m1n \ exclusions) \ L)
      chainInner pick nRows nCols selectFrom exclusions fuel m1n m2n L (n + 2)
    else some (m1, m2, locSafes, n)

/-- Increment pass of the chain generator: adjacent cells holding a clue
(`>= 0`) around a newly placed mine are incremented. -/
def chainIncAdj (nRows nCols : ℕ) (b : BoardF) (p : Pos) : BoardF :=
  fun q => if q ∈ adjacent_tiles nRows nCols p ∧ 0 ≤ b q then b q + 1 else b q

/-- Outer loop of `ChainBoardGenerator._generate_board`: place orthogonal
mine pairs until `minecount` mines exist, marking the orthogonal
neighbourhoods of both pair members as excluded for later pairs. -/
def chainOuter (pick : ℕ → Finset Pos → Pos) (nRows nCols minecount innerFuel : ℕ)
    (minePos : Finset Pos) :
    ℕ → Finset Pos → Finset Pos → BoardF → ℕ → Option (BoardF × Finset Pos)
  | 0, _, _, _, _ => none
  | fuel + 1, mines, safes, b, n =>
    if minecount ≤ mines.card then some (b, mines)
    else
      let exclusions := mines ∪ safes
      let selectFrom := minePos \ exclusions
      match chainInner pick nRows nCols selectFrom exclusions innerFuel
          ((-1 : ℤ), (-1 : ℤ)) ((-1 : ℤ), (-1 : ℤ)) ∅ n with
      | none => none
      | some (m1, m2, locSafes, n2) =>
        let safes1 := safes ∪ locSafes
        let mines1 := insert m2 (insert m1 mines)
        let b1 : BoardF := fun q => if q = m1 ∨ q = m2 then -1 else b q
        let safes2 := (safes1 ∪ get_orthogonal_adj nRows nCols m1) ∪
          get_orthogonal_adj nRows nCols m2
        let b2 := chainIncAdj nRows nCols (chainIncAdj nRows nCols b1 m1) m2
        chainOuter pick nRows nCols minecount innerFuel minePos fuel mines1 safes2 b2 n2

/-- `ChainBoardGenerator._generate_board`: zero board, the closed start
neighbourhood pre-marked safe, then the pair-placement loop over the
candidate set `set(self._mine_positions)`. -/
def chain_generate_board (pick : ℕ → Finset Pos → Pos)
    (nRows nCols minecount innerFuel outerFuel : ℕ) (startPos : Pos)
    (minePos : Finset Pos) : Option (BoardF × Finset Pos) :=
  let safes0 := ((boardGenDirections.map fun (d : Pos) =>
    (d.1 + startPos.1, d.2 + startPos.2)).toFinset : Finset Pos)
  chainOuter pick nRows nCols minecount innerFuel minePos outerFuel ∅ safes0 (fun _ => 0) 0

/-! ### Matrix solver (`MatrixSolver.py`)

The float matrix of the source is modelled over `ℚ`; the source's
`int(x) == x` re-coercion of exact entries is value-preserving and
dropped.  The solver hierarchy dispatches `_covered_adjacent_tiles` and
the one-two orthogonal walk differently in space-aware solvers, captured
by the `spaceMode` flag. -/

/-- `MatrixSolver._covered_adjacent_tiles` (and the
`SpaceBoardMatrixSolver` override, selected by `spaceMode`): adjacent
covered tiles, optionally together with flagged mines. -/
def covered_adjacent_tiles (spaceMode : Bool) (nRows nCols : ℕ) (p : Pos) (b : BoardF)
    (withMines : Bool) : Finset Pos :=
  ((solverDirections.map fun d => (p.1 + d.1, p.2 + d.2)).filter
    (fun q => inBounds nRows nCols q &&
      (if !withMines then decide (b q = -2)
       else if spaceMode then decide (b q = -1 ∨ b q = -2)
       else decide (b q < 0)))).toFinset

/-- `MatrixSolver._get_adjacent_mines`. -/
def get_adjacent_mines (nRows nCols : ℕ) (p : Pos) (b : BoardF) : Finset Pos :=
  ((solverDirections.map fun d => (p.1 + d.1, p.2 + d.2)).filter
    (fun q => inBounds nRows nCols q && decide (b q = -1))).toFinset

/-- `MatrixSolver.get_effective_num`. -/
def get_effective_num (nRows nCols : ℕ) (p : Pos) (b : BoardF) : ℤ :=
  b p - (get_adjacent_mines nRows nCols p b).card

/-- `MatrixSolver._check_neighbour_covered`. -/
def check_neighbour_covered (nRows nCols : ℕ) (p : Pos) (b : BoardF) : Bool :=
  solverDirections.any fun d =>
    inBounds nRows nCols (p.1 + d.1, p.2 + d.2) && decide (b (p.1 + d.1, p.2 + d.2) = -2)

/-- `MatrixSolver.get_border_tiles`: drop old borders that lost their
covered neighbours, add newly safe tiles that have one. -/
def get_border_tiles (nRows nCols : ℕ) (b : BoardF)
    (newSafeSet oldBorders : Finset Pos) : Finset Pos :=
  let oRemove := oldBorders.filter fun p => ¬ (check_neighbour_covered nRows nCols p b = true)
  let oAdd := newSafeSet.filter fun p => check_neighbour_covered nRows nCols p b = true
  (oldBorders ∪ oAdd) \ oRemove

/-- `MatrixSolver._get_covered_tiles`. -/
def get_covered_tiles (nRows nCols : ℕ) (b : BoardF) : Finset Pos :=
  ((cellsList nRows nCols).filter fun p => decide (b p = -2)).toFinset

/-- `MatrixSolver._get_current_minecount`. -/
def get_current_minecount (nRows nCols minecount : ℕ) (b : BoardF) : ℤ :=
  (minecount : ℤ) - ((cellsList nRows nCols).filter fun p => decide (b p = -1)).length

/-- `MatrixSolver._build_var_dict` as an association list in the
canonical border iteration order. -/
def build_var_dict (spaceMode : Bool) (nRows nCols : ℕ) (borders : Finset Pos)
    (b : BoardF) : List (Pos × Finset Pos) :=
  ((cellsList nRows nCols).filter fun p => decide (p ∈ borders)).map
    fun p => (p, covered_adjacent_tiles spaceMode nRows nCols p b false)

/-- `MatrixSolver._build_var_list`: first-occurrence list of all
variables of the dictionary. -/
def build_var_list (nRows nCols : ℕ) (varDict : List (Pos × Finset Pos)) : List Pos :=
  varDict.foldl
    (fun out pr =>
      ((cellsList nRows nCols).filter fun q => decide (q ∈ pr.2)).foldl
        (fun o q => if q ∈ o then o else o ++ [q]) out)
    []

/-- Border-cell rows of `MatrixSolver._build_mat`: unit coefficients on
the covered neighbours of each border cell, effective number as
right-hand side. -/
def build_mat_rows (nRows nCols : ℕ) (varDict : List (Pos × Finset Pos))
    (varList : List Pos) (b : BoardF) : List (List ℚ) :=
  varDict.map fun pr =>
    (varList.map fun pos => if pos ∈ pr.2 then (1 : ℚ) else 0) ++
      [((get_effective_num nRows nCols pr.1 b : ℤ) : ℚ)]

/-- Global mine-budget row of `_build_mat`: all-one coefficients and the
remaining minecount as right-hand side. -/
def minecountRow (nRows nCols minecount : ℕ) (varList : List Pos) (b : BoardF) :
    List ℚ :=
  List.replicate varList.length (1 : ℚ) ++
    [((get_current_minecount nRows nCols minecount b : ℤ) : ℚ)]

/-- `MatrixSolver._build_mat`: the border rows, plus the global minecount
row exactly when the variable set covers every covered tile and is
nonempty. -/
def build_mat (nRows nCols minecount : ℕ) (varDict : List (Pos × Finset Pos))
    (varList : List Pos) (b : BoardF) : List (List ℚ) :=
  if get_covered_tiles nRows nCols b = varList.toFinset ∧ varList ≠ [] then
    build_mat_rows nRows nCols varDict varList b ++ [minecountRow nRows nCols minecount varList b]
  else build_mat_rows nRows nCols varDict varList b

/-- State of the Gaussian elimination sweeps of
`MatrixSolver._row_echelon`: the matrix, the running target row index and
the break flag. -/
structure EchelonState where
  mat : List (List ℚ)
  tri : ℕ
  stop : Bool

/-- Python `max(rows, key=lambda r: abs(r[tc]))`: the first row with the
largest absolute entry in column `tc`. -/
def argmaxAbs (tc : ℕ) : List (List ℚ) → List ℚ
  | [] => []
  | x :: xs => xs.foldl (fun best r =>
      if |best.getD tc 0| < |r.getD tc 0| then r else best) x

/-- Simultaneous swap of two rows. -/
def listSwap (l : List (List ℚ)) (i j : ℕ) : List (List ℚ) :=
  let a := l.getD i []
  let b := l.getD j []
  (l.set i b).set j a

/-- Row elimination of the forward sweep (columns from `tc` on). -/
def elimRowFwd (pivot : List ℚ) (tc : ℕ) (r : List ℚ) : List ℚ :=
  let factor := r.getD tc 0 / pivot.getD tc 0
  if factor = 0 then r
  else r.mapIdx fun c v => if tc ≤ c then v - pivot.getD c 0 * factor else v

/-- Row elimination of the backward sweep (all columns). -/
def elimRowBwd (pivot : List ℚ) (tc : ℕ) (r : List ℚ) : List ℚ :=
  let factor := r.getD tc 0 / pivot.getD tc 0
  if factor = 0 then r
  else r.mapIdx fun c v => v - pivot.getD c 0 * factor

/-- One column of the forward sweep: partial pivoting by absolute value,
swap, and elimination below the target row. -/
def fwdStep (rows : ℕ) (s : EchelonState) (tc : ℕ) : EchelonState :=
  if s.stop then s
  else
    let maxRow := argmaxAbs tc (s.mat.drop s.tri)
    let maxIdx := s.mat.indexOf maxRow
    let m1 := listSwap s.mat maxIdx s.tri
    if (m1.getD s.tri []).getD tc 0 = 0 then { s with mat := m1 }
    else
      let pivot := m1.getD s.tri []
      let m2 := m1.mapIdx fun i r => if s.tri < i then elimRowFwd pivot tc r else r
      { mat := m2, tri := s.tri + 1, stop := decide (rows - 1 ≤ s.tri + 1) }

/-- One column of the backward sweep: elimination above the target row. -/
def bwdStep (s : EchelonState) (tc : ℕ) : EchelonState :=
  if s.stop then s
  else if (s.mat.getD s.tri []).getD tc 0 = 0 then s
  else
    let pivot := s.mat.getD s.tri []
    let m2 := s.mat.mapIdx fun i r => if i < s.tri then elimRowBwd pivot tc r else r
    { mat := m2, tri := s.tri - 1, stop := decide (s.tri ≤ 1) }

/-- `MatrixSolver._row_echelon`: forward then backward Gaussian
elimination (reachable calls always have at least one row). -/
def row_echelon (mat : List (List ℚ)) : List (List ℚ) :=
  let rows := mat.length
  let cols := (mat.headD []).length
  let fwd := (List.range (cols - 1)).foldl (fwdStep rows) ⟨mat, 0, false⟩
  let bwd := ((List.range (cols - 1)).reverse).foldl bwdStep ⟨fwd.mat, rows - 1, false⟩
  bwd.mat

/-- Nonzero coefficient terms of a row (`enumerate(row[:-1])` with zero
coefficients dropped). -/
def rowTerms (row : List ℚ) : List (ℕ × ℚ) :=
  row.dropLast.enum.filter fun t => t.2 ≠ 0

/-- Right-hand side of a row (`row[-1]`). -/
def rowResult (row : List ℚ) : ℚ := row.getLast?.getD 0

/-- Variable of a matrix column (`var_list[index]`). -/
def varAt (varList : List Pos) (i : ℕ) : Pos := varList.getD i (-1, -1)

/-- Terms contributing to the upper bound of a row: positive coefficients
of unclassified variables, and every coefficient of a known mine. -/
def rowUppers (varList : List Pos) (mines safes : Finset Pos) (row : List ℚ) :
    List (ℕ × ℚ) :=
  (rowTerms row).filter fun t =>
    (0 < t.2 ∧ varAt varList t.1 ∉ safes) ∨ varAt varList t.1 ∈ mines

/-- Terms contributing to the lower bound of a row: negative coefficients
of unclassified variables, and every coefficient of a known mine. -/
def rowLowers (varList : List Pos) (mines safes : Finset Pos) (row : List ℚ) :
    List (ℕ × ℚ) :=
  (rowTerms row).filter fun t =>
    (t.2 < 0 ∧ varAt varList t.1 ∉ safes) ∨ varAt varList t.1 ∈ mines

/-- Lower bound of a row. -/
def rowLB (varList : List Pos) (mines safes : Finset Pos) (row : List ℚ) : ℚ :=
  ((rowLowers varList mines safes row).map fun t => t.2).sum

/-- Upper bound of a row. -/
def rowUB (varList : List Pos) (mines safes : Finset Pos) (row : List ℚ) : ℚ :=
  ((rowUppers varList mines safes row).map fun t => t.2).sum

/-- One row of `MatrixSolver._analyse_matrix`: when the right-hand side
meets the lower bound, lower-bound tiles become mines and upper-bound
tiles not already mines become safes; symmetrically at the upper bound. -/
def analyseRow (varList : List Pos) (st : Finset Pos × Finset Pos) (row : List ℚ) :
    Finset Pos × Finset Pos :=
  if row.all fun x => decide (x = 0) then st
  else
    let mines := st.1
    let safes := st.2
    let uppers := rowUppers varList mines safes row
    let lowers := rowLowers varList mines safes row
    if rowResult row = rowLB varList mines safes row then
      let mines2 := mines ∪ (lowers.map fun t => varAt varList t.1).toFinset
      (mines2, safes ∪
        ((uppers.map fun t => varAt varList t.1).filter fun v => !(decide (v ∈ mines2))).toFinset)
    else if rowResult row = rowUB varList mines safes row then
      let mines2 := mines ∪ (uppers.map fun t => varAt varList t.1).toFinset
      (mines2, safes ∪
        ((lowers.map fun t => varAt varList t.1).filter fun v => !(decide (v ∈ mines2))).toFinset)
    else st

/-- `MatrixSolver._analyse_matrix`: rows processed bottom-up, earlier
classifications held fixed. -/
def analyse_matrix (mat : List (List ℚ)) (varList : List Pos) :
    Finset Pos × Finset Pos :=
  mat.reverse.foldl (analyseRow varList) (∅, ∅)

/-- `MatrixSolver._find_progress`. -/
def find_progress (spaceMode : Bool) (nRows nCols minecount : ℕ) (b : BoardF)
    (newSafeSet oldBorders : Finset Pos) : Finset Pos × Finset Pos × Finset Pos :=
  let borders := get_border_tiles nRows nCols b newSafeSet oldBorders
  if borders = ∅ then (∅, ∅, ∅)
  else
    let varDict := build_var_dict spaceMode nRows nCols borders b
    let varList := build_var_list nRows nCols varDict
    let mat := build_mat nRows nCols minecount varDict varList b
    let r := analyse_matrix (row_echelon mat) varList
    (r.1, r.2, borders)

/-! ### Logical solver (`LogicalSolver.py`, `SpaceBoardLogicalSolver.py`) -/

/-- `SpaceBoardLogicalSolver._get_space_adjacent_tiles`. -/
def get_space_adjacent_tiles (nRows nCols : ℕ) (p : Pos) (b : BoardF) : Finset Pos :=
  ((solverDirections.map fun d => (p.1 + d.1, p.2 + d.2)).filter
    (fun q => inBounds nRows nCols q && !(decide (b q = -3)))).toFinset

/-- `SpaceBoardLogicalSolver._get_space_orthogonal_adj`. -/
def get_space_orthogonal_adj (nRows nCols : ℕ) (p : Pos) (b : BoardF) : Finset Pos :=
  ((orthogonalDirections.map fun d => (p.1 + d.1, p.2 + d.2)).filter
    (fun q => inBounds nRows nCols q && !(decide (b q = -3)))).toFinset

/-- One border tile of `LogicalSolver._check_resolved_tile`, acting on
the running `(mines, safes, temp_board)` state: if every adjacent
covered-or-mine tile is needed, all become mines; if the clue is already
met by adjacent mines, the remaining covered ones become safe.  The
writes go to the local copy `temp_board` only. -/
def checkResolvedStep (spaceMode : Bool) (nRows nCols : ℕ)
    (st : Finset Pos × Finset Pos × BoardF) (p : Pos) :
    Finset Pos × Finset Pos × BoardF :=
  let tb := st.2.2
  let spaces := covered_adjacent_tiles spaceMode nRows nCols p tb true
  if (spaces.card : ℤ) = tb p then
    (st.1 ∪ spaces, st.2.1, fun q => if q ∈ spaces then -1 else tb q)
  else if ((spaces.filter fun q => tb q = -1).card : ℤ) = tb p then
    (st.1, st.2.1 ∪ spaces.filter (fun q => tb q = -2),
      fun q => if q ∈ spaces.filter (fun q2 => tb q2 = -2) then 0 else tb q)
  else st

/-- `LogicalSolver._check_resolved_tile`: fold over the border tiles on a
copy of the board. -/
def check_resolved_tile (spaceMode : Bool) (nRows nCols : ℕ) (borders : Finset Pos)
    (b : BoardF) : Finset Pos × Finset Pos :=
  let r := ((cellsList nRows nCols).filter fun p => decide (p ∈ borders)).foldl
    (checkResolvedStep spaceMode nRows nCols) (∅, ∅, b)
  (r.1, r.2.1)

/-- Inner step of `_check_one_two_pattern` for a fixed `2`-valued border
tile `p` and an orthogonal candidate `t`. -/
def oneTwoStep (spaceMode : Bool) (nRows nCols : ℕ) (borders : Finset Pos) (b : BoardF)
    (p : Pos) (st : Finset Pos × Finset Pos) (t : Pos) : Finset Pos × Finset Pos :=
  if t ∉ borders then st
  else if get_effective_num nRows nCols t b ≠ 1 then st
  else
    let bset := covered_adjacent_tiles spaceMode nRows nCols p b false
    let tset := covered_adjacent_tiles spaceMode nRows nCols t b false
    let shared := bset ∩ tset
    if bset.card - shared.card = 1 then
      (st.1 ∪ (bset \ shared), st.2 ∪ (tset \ shared))
    else st

/-- `_check_one_two_pattern` (`LogicalSolver` and the
`SpaceBoardLogicalSolver` override, which walks the space-filtered
orthogonal neighbours). -/
def check_one_two_pattern (spaceMode : Bool) (nRows nCols : ℕ) (borders : Finset Pos)
    (b : BoardF) : Finset Pos × Finset Pos :=
  ((cellsList nRows nCols).filter fun p => decide (p ∈ borders)).foldl
    (fun st p =>
      if get_effective_num nRows nCols p b ≠ 2 then st
      else
        let orth := if spaceMode then get_space_orthogonal_adj nRows nCols p b
          else get_orthogonal_adj nRows nCols p
        ((cellsList nRows nCols).filter fun t => decide (t ∈ orth)).foldl
          (oneTwoStep spaceMode nRows nCols borders b p) st)
    (∅, ∅)

/-- `LogicalSolver._find_logical_progress`. -/
def find_logical_progress (spaceMode : Bool) (nRows nCols : ℕ) (b : BoardF)
    (newSafeSet oldBorders : Finset Pos) : Finset Pos × Finset Pos × Finset Pos :=
  let borders := get_border_tiles nRows nCols b newSafeSet oldBorders
  if borders = ∅ then (∅, ∅, ∅)
  else
    let r12 := check_one_two_pattern spaceMode nRows nCols borders b
    let rres := check_resolved_tile spaceMode nRows nCols borders b
    (rres.1 ∪ r12.1, rres.2 ∪ r12.2, borders)

/-- `LogicalSolver._check_for_covered_tile`. -/
def check_for_covered_tile (nRows nCols : ℕ) (b : BoardF) : Bool :=
  (cellsList nRows nCols).any fun p => decide (b p = -2)

/-- Explicit two-board state of a solver run: the caller's `answer_board`
and the solver's internal `test_board`.  Every in-place write of the
source is an explicit update of the named field. -/
structure SolveState where
  answer : BoardF
  test : BoardF

/-- Writes `test_board[rc] = answer_board[rc]` over a set of safe tiles. -/
def applySafes (s : SolveState) (cells : Finset Pos) : SolveState :=
  { s with test := fun q => if q ∈ cells then s.answer q else s.test q }

/-- Writes `test_board[rc] = -1` over a set of mine tiles. -/
def applyMines (s : SolveState) (cells : Finset Pos) : SolveState :=
  { s with test := fun q => if q ∈ cells then -1 else s.test q }

/-- Shared solving loop of `solve`, `solve_spaces` and `puzzle_solve`:
logical pass, matrix pass when barren, abort when both barren, otherwise
apply safes then mines to the test board and repeat until no covered
tile remains.  Returns the final state, the accumulated mines, the last
border set and the solvable flag (fuel exhaustion returns the running
state with a `false` flag). -/
def solveLoop (spaceMode : Bool) (nRows nCols minecount : ℕ) :
    ℕ → SolveState → Finset Pos → Finset Pos → Finset Pos →
    SolveState × Finset Pos × Finset Pos × Bool
  | 0, s, _, oldBorders, mines => (s, mines, oldBorders, false)
  | fuel + 1, s, newSafes, oldBorders, mines =>
    if check_for_covered_tile nRows nCols s.test then
      let r1 := find_logical_progress spaceMode nRows nCols s.test newSafes oldBorders
      let r2 := if r1.1 = ∅ ∧ r1.2.1 = ∅ then
          find_progress spaceMode nRows nCols minecount s.test r1.2.1 r1.2.2
        else r1
      if r2.1 = ∅ ∧ r2.2.1 = ∅ then (s, mines, r2.2.2, false)
      else
        solveLoop spaceMode nRows nCols minecount fuel
          (applyMines (applySafes s r2.2.1) r2.1) r2.2.1 r2.2.2 (mines ∪ r2.1)
    else (s, mines, oldBorders, true)

/-- `LogicalSolver.solve`: reveal the start tile and its neighbourhood on
a fresh test board, then run the loop.  The first component carries the
final two-board state (the `answer` field models the caller's array
after the call); the remaining components are the Python return value
`(mines, solvable)`. -/
def solve (nRows nCols minecount : ℕ) (startPos : Pos) (fuel : ℕ)
    (answerBoard : BoardF) : SolveState × Finset Pos × Bool :=
  let t1 : BoardF := fun q => if q = startPos then 0 else -2
  let startAdjacency := insert startPos (solver_adjacent_tiles nRows nCols startPos)
  let s0 : SolveState :=
    { answer := answerBoard,
      test := fun q => if q ∈ startAdjacency then answerBoard q else t1 q }
  let r := solveLoop false nRows nCols minecount fuel s0 startAdjacency {startPos} ∅
  if r.2.2.2 then (r.1, ∅, true) else (r.1, r.2.1, false)

/-- `SpaceBoardLogicalSolver.solve_spaces`: like `solve` but prefilling
spaces on the test board and revealing the space-filtered start
neighbourhood. -/
def solve_spaces (nRows nCols minecount : ℕ) (startPos : Pos) (spaces : Finset Pos)
    (fuel : ℕ) (answerBoard : BoardF) : SolveState × Finset Pos × Bool :=
  let t1 : BoardF := fun q => if q ∈ spaces then -3 else if q = startPos then 0 else -2
  let startAdjacency := insert startPos (get_space_adjacent_tiles nRows nCols startPos t1)
  let s0 : SolveState :=
    { answer := answerBoard,
      test := fun q => if q ∈ startAdjacency then answerBoard q else t1 q }
  let r := solveLoop true nRows nCols minecount fuel s0 startAdjacency {startPos} ∅
  if r.2.2.2 then (r.1, ∅, true) else (r.1, r.2.1, false)

/-- `PuzzleSolver.puzzle_solve`: the prerevealed tiles replace the start
neighbourhood as the initial frontier; on failure the covered border
variables are returned alongside the final state. -/
def puzzle_solve (nRows nCols minecount : ℕ) (revealedTiles spaces : Finset Pos)
    (fuel : ℕ) (answerBoard : BoardF) : SolveState × Finset Pos × Bool :=
  let t1 : BoardF := fun q =>
    if q ∈ revealedTiles then answerBoard q else if q ∈ spaces then -3 else -2
  let s0 : SolveState := { answer := answerBoard, test := t1 }
  let r := solveLoop true nRows nCols minecount fuel s0 revealedTiles ∅ ∅
  if r.2.2.2 then (r.1, ∅, true)
  else (r.1,
    (build_var_list nRows nCols (build_var_dict true nRows nCols r.2.2.1 r.1.test)).toFinset,
    false)

/-! ### Puzzle reveal cap (`PuzzleBoardGenerator.generate_no_guess_board`) -/

/-- Source cap on prerevealed tiles:
`min(len(str((difficulty + 1) * area)) * difficulty, area // 5)`. -/
def tiles_required (nCols nRows difficulty : ℕ) : ℕ :=
  min ((Nat.repr ((difficulty + 1) * (nCols * nRows))).length * difficulty)
    ((nCols * nRows) / 5)

/-- Cap as worded by the spec claim:
`T = min(ceil(log10((d+1)*W*H)) * d, (W*H) / 5)`. -/
def claimTilesCap (nCols nRows difficulty : ℕ) : ℕ :=
  min (Nat.clog 10 ((difficulty + 1) * (nCols * nRows)) * difficulty)
    ((nCols * nRows) / 5)

/-- Edge frame of the board, always excluded from puzzle reveals. -/
def alwaysExcludeFrame (nRows nCols : ℕ) : Finset Pos :=
  (((List.range nCols).map fun c => ((0 : ℤ), (c : ℤ))) ++
   ((List.range nCols).map fun c => (((nRows : ℤ) - 1), (c : ℤ))) ++
   ((List.range nRows).map fun r => ((r : ℤ), (0 : ℤ))) ++
   ((List.range nRows).map fun r => ((r : ℤ), ((nCols : ℤ) - 1)))).toFinset

/-- Final top-up loop of `generate_no_guess_board`: after a solvable
board is found with at most `tiles_required` reveals, extra random safe
tiles are drawn (avoiding revealed tiles, mines, the frame and spaces)
until exactly `tiles_required` tiles are revealed.  The `fresh` oracle
models `give_random_tile(excludes=...)`, whose retry loop never returns
an excluded tile. -/
def topUpReveal (fresh : ℕ → Finset Pos → Pos) (target : ℕ)
    (mines spaces alwaysExclude : Finset Pos) :
    ℕ → Finset Pos → ℕ → Option (Finset Pos)
  | 0, revealed, _ =>
    if target ≤ revealed.card then some revealed else none
  | fuel + 1, revealed, n =>
    if target ≤ revealed.card then some revealed
    else
      let exclusions := ((revealed ∪ mines) ∪ alwaysExclude) ∪ spaces
      topUpReveal fresh target mines spaces alwaysExclude fuel
        (insert (fresh n exclusions) revealed) (n + 1)

/-! ### Default oracles used by the concrete witnesses -/

/-- Computable choice of an element of a nonempty finite set (the least
element in lexicographic order), used to instantiate the `pick` oracle. -/
def pickLex (s : Finset Pos) : Pos :=
  if h : s.Nonempty then ofLex ((s.image (toLex : Pos → ℤ ×ₗ ℤ)).min' (h.image _))
  else (-1, -1)

/-- Oracle form of `pickLex` (ignoring the call counter). -/
def pickDefault (_ : ℕ) (s : Finset Pos) : Pos := pickLex s

/-- Computable choice of a tile outside any finite exclusion set (used to
instantiate the `fresh` oracle of the reveal top-up): its row index is
larger than every row index of the set. -/
def freshOutside (_ : ℕ) (s : Finset Pos) : Pos :=
  (((s.sup fun p => p.1.toNat : ℕ) : ℤ) + 1, 0)

/-! ## Theorems -/

/-- A `getD` of an option known to be `some` is a member of it. -/
lemma getD_mem {α : Type} {o : Option α} (h : o.isSome = true) (d : α) : o.getD d ∈ o := by
  cases o with
  | none => exact absurd h (by simp)
  | some a => rfl

lemma mem_cellsList {nRows nCols : ℕ} {p : Pos} :
    p ∈ cellsList nRows nCols ↔ inBounds nRows nCols p = true := by
  constructor
  · intro h
    obtain ⟨r, hr, hm⟩ := List.mem_flatMap.mp h
    obtain ⟨c, hc, hh⟩ := List.mem_map.mp hm
    rw [List.mem_range] at hr hc
    subst hh
    simp only [inBounds, decide_eq_true_eq]
    refine ⟨?_, ?_, ?_, ?_⟩ <;> simp <;> omega
  · intro h
    simp only [inBounds, decide_eq_true_eq] at h
    obtain ⟨h1, h2, h3, h4⟩ := h
    refine List.mem_flatMap.mpr ⟨p.1.toNat, List.mem_range.mpr (by omega), ?_⟩
    refine List.mem_map.mpr ⟨p.2.toNat, List.mem_range.mpr (by omega), ?_⟩
    rw [Int.toNat_of_nonneg h1, Int.toNat_of_nonneg h3]

lemma mem_allCells {nRows nCols : ℕ} {p : Pos} :
    p ∈ allCells nRows nCols ↔ inBounds nRows nCols p = true := by
  rw [allCells, List.mem_toFinset, mem_cellsList]

lemma boardGenDirections_eq :
    boardGenDirections =
      [(-1, -1), (-1, 0), (-1, 1), (0, -1), (0, 1), (1, -1), (1, 0), (1, 1), (0, 0)] := by
  decide

lemma neg_mem_boardGenDirections {d : Pos} (hd : d ∈ boardGenDirections) :
    (-d.1, -d.2) ∈ boardGenDirections := by
  rw [boardGenDirections_eq] at hd ⊢
  fin_cases hd <;> decide

lemma mem_adjacent_tiles {nRows nCols : ℕ} {p q : Pos} :
    q ∈ adjacent_tiles nRows nCols p ↔
      (∃ d ∈ boardGenDirections, q = (p.1 + d.1, p.2 + d.2)) ∧
        inBounds nRows nCols q = true := by
  simp only [adjacent_tiles, List.mem_toFinset, List.mem_filter, List.mem_map]
  constructor
  · rintro ⟨⟨d, hd, rfl⟩, hb⟩
    exact ⟨⟨d, hd, rfl⟩, hb⟩
  · rintro ⟨⟨d, hd, rfl⟩, hb⟩
    exact ⟨⟨d, hd, rfl⟩, hb⟩

lemma adjacent_tiles_symm {nRows nCols : ℕ} {p q : Pos}
    (hp : inBounds nRows nCols p = true) (h : q ∈ adjacent_tiles nRows nCols p) :
    p ∈ adjacent_tiles nRows nCols q := by
  rcases mem_adjacent_tiles.mp h with ⟨⟨d, hd, rfl⟩, hb⟩
  refine mem_adjacent_tiles.mpr ⟨⟨(-d.1, -d.2), neg_mem_boardGenDirections hd, ?_⟩, hp⟩
  obtain ⟨p1, p2⟩ := p
  simp only [Prod.mk.injEq]
  constructor <;> ring

lemma mem_startNeighbourhood {startPos q : Pos} :
    q ∈ startNeighbourhood startPos ↔
      ∃ d ∈ rawDirections ++ [((0 : ℤ), (0 : ℤ))], q = (d.1 + startPos.1, d.2 + startPos.2) := by
  simp only [startNeighbourhood, List.mem_toFinset, List.mem_map]
  constructor
  · rintro ⟨d, hd, rfl⟩; exact ⟨d, hd, rfl⟩
  · rintro ⟨d, hd, rfl⟩; exact ⟨d, hd, rfl⟩

lemma self_mem_startNeighbourhood {startPos : Pos} :
    startPos ∈ startNeighbourhood startPos := by
  refine mem_startNeighbourhood.mpr ⟨(0, 0), by simp, ?_⟩
  simp

/-- Membership description of `generate_mines_list`. -/
lemma mem_generate_mines_list {nRows nCols : ℕ} {startPos : Pos} {includes : List Pos}
    {excludes : Finset Pos} {shuffle : List Pos → List Pos}
    (hsh : ∀ l, (shuffle l).Perm l) {p : Pos} :
    p ∈ generate_mines_list nRows nCols startPos includes excludes shuffle ↔
      p ∈ includes ∨
        (p ∈ cellsList nRows nCols ∧ p ∉ excludes ∧
          p ∉ startNeighbourhood startPos ∧ p ∉ includes) := by
  simp only [generate_mines_list, admissiblePositions, List.mem_append]
  rw [(hsh _).mem_iff]
  simp only [List.mem_filter,
    Bool.and_eq_true, Bool.not_eq_true', decide_eq_false_iff_not, Finset.mem_union]
  rw [not_or]
  simp only [and_assoc]

/-- Placing a mine preserves the coincidence of `-1` cells with the mine
set. -/
lemma placeMine_code (adj : Pos → Finset Pos) {b : BoardF} {mines : Finset Pos} {p : Pos}
    (h1 : ∀ q, b q = -1 ↔ q ∈ mines)
    (h2 : ∀ q, q ∉ mines → b q = ((mines.filter fun m => q ∈ adj m).card : ℤ))
    (hpm : p ∉ mines) :
    ∀ q, placeMine adj b p q = -1 ↔ q ∈ insert p mines := by
  intro q
  by_cases hq : q = p
  · subst hq; simp [placeMine]
  · simp only [placeMine, if_neg hq, Finset.mem_insert]
    by_cases hadj : q ∈ adj p ∧ b q ≠ -1
    · rw [if_pos hadj]
      have hqm : q ∉ mines := fun hmem => hadj.2 ((h1 q).mpr hmem)
      have := h2 q hqm
      constructor
      · intro h; omega
      · rintro (rfl | hmem)
        · exact absurd rfl hq
        · exact absurd ((h1 q).mpr hmem) hadj.2
    · rw [if_neg hadj, h1 q]
      constructor
      · exact fun h => Or.inr h
      · rintro (rfl | hmem)
        · exact absurd rfl hq
        · exact hmem

/-- Placing a mine updates every non-mine cell to the count of adjacent
mines including the new one. -/
lemma placeMine_count (adj : Pos → Finset Pos) {b : BoardF} {mines : Finset Pos} {p : Pos}
    (h1 : ∀ q, b q = -1 ↔ q ∈ mines)
    (h2 : ∀ q, q ∉ mines → b q = ((mines.filter fun m => q ∈ adj m).card : ℤ))
    (hpm : p ∉ mines) :
    ∀ q, q ∉ insert p mines →
      placeMine adj b p q = (((insert p mines).filter fun m => q ∈ adj m).card : ℤ) := by
  intro q hq
  rw [Finset.mem_insert] at hq
  push_neg at hq
  obtain ⟨hqp, hqm⟩ := hq
  rw [Finset.filter_insert]
  by_cases hadj : q ∈ adj p
  · rw [if_pos hadj]
    have hbq : b q ≠ -1 := fun h => hqm ((h1 q).mp h)
    have hcard : p ∉ mines.filter fun m => q ∈ adj m :=
      fun h => hpm (Finset.mem_of_mem_filter p h)
    rw [Finset.card_insert_of_not_mem hcard]
    simp only [placeMine, if_neg hqp, if_pos (And.intro hadj hbq)]
    rw [h2 q hqm]
    push_cast
    ring
  · rw [if_neg hadj]
    have heq : placeMine adj b p q = b q := by
      simp only [placeMine, if_neg hqp]
      rw [if_neg]
      rintro ⟨h, _⟩
      exact hadj h
    rw [heq, h2 q hqm]

/-- Mine placement invariants: through the loop of `_generate_board`,
`-1` cells and the mine set coincide, and every non-mine cell counts the
mines it is adjacent to (in the reversed sense of the increment loop). -/
lemma generateBoardGo_inv (adj : Pos → Finset Pos) (M : ℕ) :
    ∀ (ps : List Pos) (mines : Finset Pos) (b : BoardF) (k : ℕ),
      (∀ p, b p = -1 ↔ p ∈ mines) →
      (∀ p, p ∉ mines → b p = ((mines.filter fun m => p ∈ adj m).card : ℤ)) →
      mines.card ≤ M →
      ∀ r : BoardF × Finset Pos × ℕ,
        generateBoardGo adj M ps mines b k = some r →
        (∀ p, r.1 p = -1 ↔ p ∈ r.2.1) ∧
        (∀ p, p ∉ r.2.1 → r.1 p = ((r.2.1.filter fun m => p ∈ adj m).card : ℤ)) ∧
        r.2.1.card = M ∧
        (∀ p ∈ r.2.1, p ∈ mines ∨ p ∈ ps) := by
  intro ps
  induction ps with
  | nil =>
    intro mines b k h1 h2 hc r hr
    rw [generateBoardGo] at hr
    by_cases hM : M ≤ mines.card
    · simp only [if_pos hM] at hr
      cases hr
      exact ⟨h1, h2, le_antisymm hc hM, fun p hp => Or.inl hp⟩
    · simp [if_neg hM] at hr
  | cons p rest ih =>
    intro mines b k h1 h2 hc r hr
    rw [generateBoardGo] at hr
    by_cases hM : M ≤ mines.card
    · simp only [if_pos hM] at hr
      cases hr
      exact ⟨h1, h2, le_antisymm hc hM, fun q hq => Or.inl hq⟩
    · simp only [if_neg hM] at hr
      by_cases hbp : b p ≠ -1
      · simp only [if_pos hbp] at hr
        have hpm : p ∉ mines := fun hmem => hbp ((h1 p).mpr hmem)
        have h1n := placeMine_code adj h1 h2 hpm
        have h2n := placeMine_count adj h1 h2 hpm
        have hcn : (insert p mines).card ≤ M := by
          rw [Finset.card_insert_of_not_mem hpm]
          omega
        obtain ⟨a1, a2, a3, a4⟩ := ih (insert p mines) (placeMine adj b p) (k + 1) h1n h2n hcn r hr
        refine ⟨a1, a2, a3, ?_⟩
        intro q hq
        rcases a4 q hq with hmem | hmem
        · rcases Finset.mem_insert.mp hmem with rfl | hmem
          · exact Or.inr (List.mem_cons_self _ _)
          · exact Or.inl hmem
        · exact Or.inr (List.mem_cons_of_mem _ hmem)
      · simp only [if_neg hbp] at hr
        obtain ⟨a1, a2, a3, a4⟩ := ih mines b (k + 1) h1 h2 hc r hr
        refine ⟨a1, a2, a3, ?_⟩
        intro q hq
        rcases a4 q hq with hmem | hmem
        · exact Or.inl hmem
        · exact Or.inr (List.mem_cons_of_mem _ hmem)

/-- When enough distinct positions remain, the placement loop
succeeds. -/
lemma generateBoardGo_isSome (adj : Pos → Finset Pos) (M : ℕ) :
    ∀ (ps : List Pos) (mines : Finset Pos) (b : BoardF) (k : ℕ),
      (∀ p, b p = -1 ↔ p ∈ mines) →
      (∀ p, p ∉ mines → b p = ((mines.filter fun m => p ∈ adj m).card : ℤ)) →
      M ≤ mines.card + (ps.toFinset \ mines).card →
      (generateBoardGo adj M ps mines b k).isSome = true := by
  intro ps
  induction ps with
  | nil =>
    intro mines b k h1 h2 hb
    rw [generateBoardGo]
    rw [List.toFinset_nil, Finset.empty_sdiff, Finset.card_empty, add_zero] at hb
    rw [if_pos hb]
    rfl
  | cons p rest ih =>
    intro mines b k h1 h2 hb
    rw [generateBoardGo]
    by_cases hM : M ≤ mines.card
    · rw [if_pos hM]; rfl
    · rw [if_neg hM]
      rw [List.toFinset_cons] at hb
      by_cases hbp : b p ≠ -1
      · rw [if_pos hbp]
        have hpm : p ∉ mines := fun hmem => hbp ((h1 p).mpr hmem)
        refine ih (insert p mines) (placeMine adj b p) (k + 1)
          (placeMine_code adj h1 h2 hpm) (placeMine_count adj h1 h2 hpm) ?_
        rw [Finset.card_insert_of_not_mem hpm]
        rw [Finset.insert_sdiff_of_not_mem _ hpm] at hb
        rw [Finset.sdiff_insert]
        by_cases hpr : p ∈ rest.toFinset \ mines
        · rw [Finset.insert_eq_self.mpr hpr] at hb
          rw [Finset.card_erase_of_mem hpr]
          have hpos : 0 < (rest.toFinset \ mines).card := Finset.card_pos.mpr ⟨p, hpr⟩
          omega
        · rw [Finset.card_insert_of_not_mem hpr] at hb
          rw [Finset.erase_eq_of_not_mem hpr]
          omega
      · rw [if_neg hbp]
        push_neg at hbp
        have hpm : p ∈ mines := (h1 p).mp hbp
        refine ih mines b (k + 1) h1 h2 ?_
        rw [Finset.insert_sdiff_of_mem _ hpm] at hb
        exact hb

/-- A successful placement run needs at least `M` distinct fresh
positions in the candidate list. -/
lemma generateBoardGo_le_of_some (adj : Pos → Finset Pos) (M : ℕ) :
    ∀ (ps : List Pos) (mines : Finset Pos) (b : BoardF) (k : ℕ)
      (r : BoardF × Finset Pos × ℕ),
      generateBoardGo adj M ps mines b k = some r →
      M ≤ mines.card + (ps.toFinset \ mines).card := by
  intro ps
  induction ps with
  | nil =>
    intro mines b k r hr
    rw [generateBoardGo] at hr
    by_cases hM : M ≤ mines.card
    · omega
    · rw [if_neg hM] at hr
      simp at hr
  | cons p rest ih =>
    intro mines b k r hr
    rw [generateBoardGo] at hr
    by_cases hM : M ≤ mines.card
    · omega
    · rw [if_neg hM] at hr
      rw [List.toFinset_cons]
      by_cases hbp : b p ≠ -1
      · rw [if_pos hbp] at hr
        have hb := ih (insert p mines) (placeMine adj b p) (k + 1) r hr
        by_cases hpm : p ∈ mines
        · rw [Finset.insert_sdiff_of_mem _ hpm]
          have : insert p mines = mines := Finset.insert_eq_self.mpr hpm
          rw [this] at hb
          exact hb
        · rw [Finset.insert_sdiff_of_not_mem _ hpm]
          rw [Finset.card_insert_of_not_mem hpm] at hb
          rw [Finset.sdiff_insert] at hb
          by_cases hpr : p ∈ rest.toFinset \ mines
          · rw [Finset.insert_eq_self.mpr hpr]
            rw [Finset.card_erase_of_mem hpr] at hb
            have hpos : 0 < (rest.toFinset \ mines).card := Finset.card_pos.mpr ⟨p, hpr⟩
            omega
          · rw [Finset.card_insert_of_not_mem hpr]
            rw [Finset.erase_eq_of_not_mem hpr] at hb
            omega
      · rw [if_neg hbp] at hr
        have hb := ih mines b (k + 1) r hr
        by_cases hpm : p ∈ mines
        · rw [Finset.insert_sdiff_of_mem _ hpm]
          exact hb
        · rw [Finset.insert_sdiff_of_not_mem _ hpm]
          have hins := Finset.card_le_card (Finset.subset_insert p (rest.toFinset \ mines))
          omega

lemma neg_mem_seedDirections {d : Pos} (hd : d ∈ boardGenDirections) :
    (-d.1, -d.2) ∈ rawDirections ++ [((0 : ℤ), (0 : ℤ))] := by
  rw [boardGenDirections_eq] at hd
  fin_cases hd <;> decide

/-- Claim C1: a board produced by `BoardGenerator._generate_board` from a
candidate list with at least `minecount` distinct admissible positions
has exactly `minecount` cells holding `-1`, and every cell not holding
`-1` holds the number of mines among its in-bounds 8-neighbours (the
surviving `(0, 0)` offset in the directions list is harmless: the mine
cell itself is `-1` and skipped by the increment loop). -/
theorem generate_board_invariants (nRows nCols minecount : ℕ) (minePositions : List Pos)
    (hpos : ∀ p ∈ minePositions, inBounds nRows nCols p = true) :
    (minecount ≤ minePositions.toFinset.card →
      (generate_board nRows nCols minecount minePositions).isSome = true) ∧
    ∀ r ∈ generate_board nRows nCols minecount minePositions,
      ((allCells nRows nCols).filter fun p => r.1 p = -1).card = minecount ∧
      r.2.card = minecount ∧
      (∀ p, inBounds nRows nCols p = true → (r.1 p = -1 ↔ p ∈ r.2)) ∧
      (∀ p, inBounds nRows nCols p = true → r.1 p ≠ -1 →
        r.1 p = ((r.2.filter fun m => m ∈ adjacent_tiles nRows nCols p).card : ℤ)) := by
  have h1 : ∀ p, (fun _ : Pos => (0 : ℤ)) p = -1 ↔ p ∈ (∅ : Finset Pos) := by simp
  have h2 : ∀ p, p ∉ (∅ : Finset Pos) →
      (fun _ : Pos => (0 : ℤ)) p =
        (((∅ : Finset Pos).filter fun m => p ∈ adjacent_tiles nRows nCols m).card : ℤ) := by
    simp
  constructor
  · intro hM
    rw [generate_board]
    have := generateBoardGo_isSome (adjacent_tiles nRows nCols) minecount minePositions
      ∅ (fun _ => 0) 0 h1 h2 (by rw [Finset.card_empty, Finset.sdiff_empty]; omega)
    cases hgo : generateBoardGo (adjacent_tiles nRows nCols) minecount minePositions
        ∅ (fun _ => 0) 0 with
    | none => rw [hgo] at this; exact absurd this (by simp)
    | some a => rfl
  · intro r hr
    rw [Option.mem_def, generate_board] at hr
    cases hgo : generateBoardGo (adjacent_tiles nRows nCols) minecount minePositions
        ∅ (fun _ => 0) 0 with
    | none => rw [hgo] at hr; exact Option.noConfusion hr
    | some a =>
      rw [hgo] at hr
      simp only [Option.map_some', Option.some.injEq] at hr
      obtain ⟨a1, a2, a3, a4⟩ := generateBoardGo_inv (adjacent_tiles nRows nCols) minecount
        minePositions ∅ (fun _ => 0) 0 h1 h2 (by simp) a hgo
      have hmB : ∀ m ∈ a.2.1, inBounds nRows nCols m = true := by
        intro m hm
        rcases a4 m hm with hmem | hmem
        · exact absurd hmem (Finset.not_mem_empty m)
        · exact hpos m hmem
      subst hr
      refine ⟨?_, a3, fun p _ => a1 p, ?_⟩
      · have hset : ((allCells nRows nCols).filter fun p => a.1 p = -1) = a.2.1 := by
          ext q
          rw [Finset.mem_filter, mem_allCells]
          constructor
          · rintro ⟨_, hq⟩
            exact (a1 q).mp hq
          · intro hq
            exact ⟨hmB q hq, (a1 q).mpr hq⟩
        rw [hset, a3]
      · intro p hp hne
        have hpm : p ∉ a.2.1 := fun hmem => hne ((a1 p).mpr hmem)
        rw [a2 p hpm]
        have hfil : (a.2.1.filter fun m => p ∈ adjacent_tiles nRows nCols m) =
            a.2.1.filter fun m => m ∈ adjacent_tiles nRows nCols p := by
          ext m
          rw [Finset.mem_filter, Finset.mem_filter]
          constructor
          · rintro ⟨hm, hadj⟩
            exact ⟨hm, adjacent_tiles_symm (hmB m hm) hadj⟩
          · rintro ⟨hm, hadj⟩
            exact ⟨hm, adjacent_tiles_symm hp hadj⟩
        rw [hfil]

/-- Witness for C1 at a concrete 3×3 instance. -/
theorem generate_board_invariants_witness :
    (2 ≤ ([(0, 0), (0, 2), (2, 2)] : List Pos).toFinset.card →
      (generate_board 3 3 2 [(0, 0), (0, 2), (2, 2)]).isSome = true) ∧
    ∀ r ∈ generate_board 3 3 2 [(0, 0), (0, 2), (2, 2)],
      ((allCells 3 3).filter fun p => r.1 p = -1).card = 2 ∧
      r.2.card = 2 ∧
      (∀ p, inBounds 3 3 p = true → (r.1 p = -1 ↔ p ∈ r.2)) ∧
      (∀ p, inBounds 3 3 p = true → r.1 p ≠ -1 →
        r.1 p = ((r.2.filter fun m => m ∈ adjacent_tiles 3 3 p).card : ℤ)) :=
  generate_board_invariants 3 3 2 [(0, 0), (0, 2), (2, 2)] (by decide)

/-- Claim C2: when `includes` avoids the closed 8-neighbourhood of the
start position, no tile of that closed neighbourhood occurs in the
candidate list of `Seed.generate_mines_list`, and every board assembled
from such a list by `_generate_board` has value `0` at the start
position. -/
theorem generate_mines_list_start_zero (nRows nCols : ℕ) (startPos : Pos)
    (includes : List Pos) (excludes : Finset Pos) (shuffle : List Pos → List Pos)
    (hsh : ∀ l, (shuffle l).Perm l)
    (hinc : ∀ p ∈ includes, p ∉ startNeighbourhood startPos) :
    (∀ p ∈ generate_mines_list nRows nCols startPos includes excludes shuffle,
      p ∉ startNeighbourhood startPos) ∧
    ∀ minecount : ℕ,
      ∀ r ∈ generate_board nRows nCols minecount
          (generate_mines_list nRows nCols startPos includes excludes shuffle),
        r.1 startPos = 0 := by
  have hlist : ∀ p ∈ generate_mines_list nRows nCols startPos includes excludes shuffle,
      p ∉ startNeighbourhood startPos := by
    intro p hp
    rcases (mem_generate_mines_list hsh).mp hp with hmem | ⟨_, _, hnb, _⟩
    · exact hinc p hmem
    · exact hnb
  refine ⟨hlist, ?_⟩
  intro minecount r hr
  rw [Option.mem_def, generate_board] at hr
  have h1 : ∀ p, (fun _ : Pos => (0 : ℤ)) p = -1 ↔ p ∈ (∅ : Finset Pos) := by simp
  have h2 : ∀ p, p ∉ (∅ : Finset Pos) →
      (fun _ : Pos => (0 : ℤ)) p =
        (((∅ : Finset Pos).filter fun m => p ∈ adjacent_tiles nRows nCols m).card : ℤ) := by
    simp
  cases hgo : generateBoardGo (adjacent_tiles nRows nCols) minecount
      (generate_mines_list nRows nCols startPos includes excludes shuffle)
      ∅ (fun _ => 0) 0 with
  | none => rw [hgo] at hr; exact Option.noConfusion hr
  | some a =>
    rw [hgo] at hr
    simp only [Option.map_some', Option.some.injEq] at hr
    obtain ⟨a1, a2, _, a4⟩ := generateBoardGo_inv (adjacent_tiles nRows nCols) minecount
      (generate_mines_list nRows nCols startPos includes excludes shuffle)
      ∅ (fun _ => 0) 0 h1 h2 (by simp) a hgo
    have hmines : ∀ m ∈ a.2.1, m ∉ startNeighbourhood startPos := by
      intro m hm
      rcases a4 m hm with hmem | hmem
      · exact absurd hmem (Finset.not_mem_empty m)
      · exact hlist m hmem
    have hstart : startPos ∉ a.2.1 :=
      fun hmem => hmines startPos hmem self_mem_startNeighbourhood
    subst hr
    rw [a2 startPos hstart]
    have hempty : (a.2.1.filter fun m => startPos ∈ adjacent_tiles nRows nCols m) = ∅ := by
      rw [Finset.filter_eq_empty_iff]
      intro m hm hadj
      rcases mem_adjacent_tiles.mp hadj with ⟨⟨d, hd, heq⟩, _⟩
      refine hmines m hm (mem_startNeighbourhood.mpr
        ⟨(-d.1, -d.2), neg_mem_seedDirections hd, ?_⟩)
      obtain ⟨m1, m2⟩ := m
      rw [Prod.mk.injEq] at heq
      simp only [Prod.mk.injEq]
      constructor <;> omega
    rw [hempty]
    rfl

/-- Witness for C2 at a concrete 5×5 instance with start `(2, 2)`. -/
theorem generate_mines_list_start_zero_witness :
    (∀ p ∈ generate_mines_list 5 5 (2, 2) [(0, 0)] ∅ id,
      p ∉ startNeighbourhood (2, 2)) ∧
    ∀ minecount : ℕ,
      ∀ r ∈ generate_board 5 5 minecount (generate_mines_list 5 5 (2, 2) [(0, 0)] ∅ id),
        r.1 (2, 2) = 0 :=
  generate_mines_list_start_zero 5 5 (2, 2) [(0, 0)] ∅ id
    (fun l => List.Perm.refl l) (by decide)

/-- Counterexample to claim C8: on a 5×5 board with start `(2, 2)` and
`minecount = 17 > 16` admissible positions, the spec-worded generator
would fail with `Infeasible`, but the source `generate_mines_list`
returns an ordinary 16-element list with no error; the failure only
occurs later, in the board assembler, whose placement loop runs off the
list (modelled by `none`, the Python `IndexError`). -/
theorem generate_mines_list_infeasible_counterexample :
    generate_mines_list_spec 5 5 (2, 2) [] ∅ id 17 = .error "Infeasible" ∧
    (generate_mines_list 5 5 (2, 2) [] ∅ id).length = 16 ∧
    (generate_board 5 5 17 (generate_mines_list 5 5 (2, 2) [] ∅ id)).isNone = true := by
  refine ⟨rfl, by decide, ?_⟩
  decide

/-- Amended claim C8: `generate_mines_list` performs no feasibility
check: it always returns the full list of `|includes| + |admissible|`
positions, and when that total is below `minecount` the downstream board
assembler is where the failure surfaces (its loop exhausts the list). -/
theorem generate_mines_list_length_and_assembler_failure
    (nRows nCols minecount : ℕ) (startPos : Pos) (includes : List Pos)
    (excludes : Finset Pos) (shuffle : List Pos → List Pos)
    (hsh : ∀ l, (shuffle l).Perm l) :
    (generate_mines_list nRows nCols startPos includes excludes shuffle).length =
      includes.length + (admissiblePositions nRows nCols startPos includes excludes).length ∧
    (includes.length + (admissiblePositions nRows nCols startPos includes excludes).length <
        minecount →
      (generate_board nRows nCols minecount
        (generate_mines_list nRows nCols startPos includes excludes shuffle)).isNone = true) := by
  have hlen : (generate_mines_list nRows nCols startPos includes excludes shuffle).length =
      includes.length + (admissiblePositions nRows nCols startPos includes excludes).length := by
    rw [generate_mines_list, List.length_append, (hsh _).length_eq]
  refine ⟨hlen, ?_⟩
  intro hlt
  rw [generate_board]
  cases hgo : generateBoardGo (adjacent_tiles nRows nCols) minecount
      (generate_mines_list nRows nCols startPos includes excludes shuffle)
      ∅ (fun _ => 0) 0 with
  | none => rfl
  | some a =>
    exfalso
    have hle := generateBoardGo_le_of_some (adjacent_tiles nRows nCols) minecount
      (generate_mines_list nRows nCols startPos includes excludes shuffle)
      ∅ (fun _ => 0) 0 a hgo
    rw [Finset.card_empty, Finset.sdiff_empty] at hle
    have hfle := List.toFinset_card_le
      (generate_mines_list nRows nCols startPos includes excludes shuffle)
    omega

/-- Witness for the amended claim C8 at the concrete infeasible
instance. -/
theorem generate_mines_list_length_witness :
    (generate_mines_list 5 5 (2, 2) [] ∅ id).length =
      ([] : List Pos).length + (admissiblePositions 5 5 (2, 2) [] ∅).length ∧
    (([] : List Pos).length + (admissiblePositions 5 5 (2, 2) [] ∅).length < 17 →
      (generate_board 5 5 17 (generate_mines_list 5 5 (2, 2) [] ∅ id)).isNone = true) :=
  generate_mines_list_length_and_assembler_failure 5 5 17 (2, 2) [] ∅ id
    (fun l => List.Perm.refl l)

/-- Claim C9: with an empty seed string, `Seed.__init__` records a fresh
10-character alphanumeric seed (returned by `get_seed`, here the `.ok`
payload); with a nonempty seed string it raises exactly when the string
is longer than 10 characters or contains a character outside
`[A-Za-z0-9 ]`. -/
theorem seed_validation (σ : String) (choose : ℕ → ℕ) (hne : σ ≠ "") :
    seedInit "" choose = .ok (gen_seed choose) ∧
    (gen_seed choose).length = 10 ∧
    (∀ c ∈ (gen_seed choose).data, c ∈ seedPopulation) ∧
    ((∃ e, seedInit σ choose = .error e) ↔
      10 < σ.length ∨ ∃ c ∈ σ.data, c ∉ seedAllowedChars) := by
  refine ⟨rfl, ?_, ?_, ?_⟩
  · rw [gen_seed]
    simp [String.length]
  · intro c hc
    rw [gen_seed] at hc
    simp only [String.mk, List.mem_map, List.mem_range] at hc
    obtain ⟨i, _, rfl⟩ := hc
    have hlt : choose i % seedPopulation.length < seedPopulation.length :=
      Nat.mod_lt _ (by decide)
    rw [List.getD_eq_getElem _ _ hlt]
    exact List.getElem_mem hlt
  · rw [seedInit, if_neg hne]
    by_cases hv : seedInvalid σ = true
    · rw [if_pos hv]
      rw [seedInvalid] at hv
      simp only [Bool.or_eq_true, decide_eq_true_eq, List.any_eq_true,
        Bool.not_eq_true', decide_eq_false_iff_not] at hv
      simp only [iff_true_intro hv, iff_true]
      exact ⟨_, rfl⟩
    · rw [if_neg hv]
      rw [seedInvalid] at hv
      simp only [Bool.or_eq_true, decide_eq_true_eq, List.any_eq_true,
        Bool.not_eq_true', decide_eq_false_iff_not] at hv
      constructor
      · rintro ⟨e, he⟩
        exact absurd he (by simp)
      · intro h
        exact absurd h hv

/-- Witness for C9: the 12-character string with an illegal `!` is
rejected, concretely. -/
theorem seed_validation_witness :
    seedInit "" (fun _ => 0) = .ok (gen_seed (fun _ => 0)) ∧
    (gen_seed (fun _ => 0)).length = 10 ∧
    (∀ c ∈ (gen_seed (fun _ => 0)).data, c ∈ seedPopulation) ∧
    ((∃ e, seedInit "hello world!" (fun _ => 0) = .error e) ↔
      10 < "hello world!".length ∨ ∃ c ∈ "hello world!".data, c ∉ seedAllowedChars) :=
  seed_validation "hello world!" (fun _ => 0) (by decide)

/-- Invariants of the space-placement loop: spaces are placed only on
clue cells (value `>= 0` under the pre-pass board), are marked `-3`, and
other cells are untouched; the loop stops at exactly `spaceCount`
spaces. -/
lemma spacePhaseGo_inv (spaceCount : ℕ) (b0 : BoardF) :
    ∀ (ps : List Pos) (spaces : Finset Pos) (b : BoardF),
      (∀ p ∈ spaces, b p = -3) →
      (∀ p, p ∉ spaces → b p = b0 p) →
      (∀ p ∈ spaces, 0 ≤ b0 p) →
      spaces.card ≤ spaceCount →
      ∀ r : BoardF × Finset Pos,
        spacePhaseGo spaceCount ps spaces b = some r →
        r.2.card = spaceCount ∧
        (∀ p ∈ r.2, 0 ≤ b0 p) ∧
        (∀ p ∈ r.2, r.1 p = -3) ∧
        (∀ p, p ∉ r.2 → r.1 p = b0 p) ∧
        (∀ p ∈ r.2, p ∈ spaces ∨ p ∈ ps) := by
  intro ps
  induction ps with
  | nil =>
    intro spaces b hI hII hIII hc r hr
    rw [spacePhaseGo] at hr
    by_cases hS : spaceCount ≤ spaces.card
    · rw [if_pos hS] at hr
      cases hr
      exact ⟨le_antisymm hc hS, hIII, hI, hII, fun p hp => Or.inl hp⟩
    · rw [if_neg hS] at hr
      exact Option.noConfusion hr
  | cons p rest ih =>
    intro spaces b hI hII hIII hc r hr
    rw [spacePhaseGo] at hr
    by_cases hS : spaceCount ≤ spaces.card
    · rw [if_pos hS] at hr
      cases hr
      exact ⟨le_antisymm hc hS, hIII, hI, hII, fun q hq => Or.inl hq⟩
    · rw [if_neg hS] at hr
      by_cases hbp : (0 : ℤ) ≤ b p
      · rw [if_pos hbp] at hr
        have hps : p ∉ spaces := fun hmem => by
          have := hI p hmem
          omega
        have hb0 : b p = b0 p := hII p hps
        have hIn : ∀ q ∈ insert p spaces,
            (fun q2 => if q2 = p then (-3 : ℤ) else b q2) q = -3 := by
          intro q hq
          rcases Finset.mem_insert.mp hq with rfl | hmem
          · simp
          · by_cases hqp : q = p
            · subst hqp; simp
            · simp only [if_neg hqp]
              exact hI q hmem
        have hIIn : ∀ q, q ∉ insert p spaces →
            (fun q2 => if q2 = p then (-3 : ℤ) else b q2) q = b0 q := by
          intro q hq
          rw [Finset.mem_insert] at hq
          push_neg at hq
          simp only [if_neg hq.1]
          exact hII q hq.2
        have hIIIn : ∀ q ∈ insert p spaces, 0 ≤ b0 q := by
          intro q hq
          rcases Finset.mem_insert.mp hq with rfl | hmem
          · omega
          · exact hIII q hmem
        have hcn : (insert p spaces).card ≤ spaceCount := by
          rw [Finset.card_insert_of_not_mem hps]
          omega
        obtain ⟨a1, a2, a3, a4, a5⟩ := ih (insert p spaces) _ hIn hIIn hIIIn hcn r hr
        refine ⟨a1, a2, a3, a4, ?_⟩
        intro q hq
        rcases a5 q hq with hmem | hmem
        · rcases Finset.mem_insert.mp hmem with rfl | hmem2
          · exact Or.inr (List.mem_cons_self _ _)
          · exact Or.inl hmem2
        · exact Or.inr (List.mem_cons_of_mem _ hmem)
      · rw [if_neg hbp] at hr
        obtain ⟨a1, a2, a3, a4, a5⟩ := ih spaces b hI hII hIII hc r hr
        refine ⟨a1, a2, a3, a4, ?_⟩
        intro q hq
        rcases a5 q hq with hmem | hmem
        · exact Or.inl hmem
        · exact Or.inr (List.mem_cons_of_mem _ hmem)

/-- Claim C5: the second pass of
`SpaceBoardGenerator._generate_board_space` draws from a freshly
generated candidate sequence whose extra positions exclude the mines and
the carried prior spaces, stops after exactly `space_count` placed
spaces, places no space on a mine, and overwrites the clue value of each
placed space cell with `-3`, leaving all other cells unchanged.  The
stale `index` cursor of the source is modelled by the `drop` of the
consumed prefix. -/
theorem generate_board_space_second_pass (nRows nCols minecount spaceCount : ℕ)
    (startPos : Pos) (minePositions spacePositions : List Pos)
    (shuffle : List Pos → List Pos) (hsh : ∀ l, (shuffle l).Perm l) :
    ∀ r0 ∈ generateBoardGo (space_get_adjacent_tiles nRows nCols (fun _ => -2)) minecount
        minePositions ∅ (fun _ => 0) 0,
      (∀ p ∈ spaceCandidates nRows nCols startPos spacePositions r0.2.1 shuffle,
        p ∉ spacePositions → p ∉ r0.2.1 ∧ p ∉ startNeighbourhood startPos) ∧
      ∀ r ∈ spacePhaseGo spaceCount
          ((spaceCandidates nRows nCols startPos spacePositions r0.2.1 shuffle).drop r0.2.2)
          ∅ r0.1,
        generate_board_space nRows nCols minecount spaceCount startPos minePositions
            spacePositions shuffle = some (r.1, r0.2.1, r.2) ∧
        r.2.card = spaceCount ∧
        (∀ p ∈ r.2, 0 ≤ r0.1 p ∧ r.1 p = -3 ∧ p ∉ r0.2.1) ∧
        (∀ p, p ∉ r.2 → r.1 p = r0.1 p) := by
  rintro ⟨b0, mines, k⟩ hr0
  rw [Option.mem_def] at hr0
  have hfresh : ∀ p ∈ spaceCandidates nRows nCols startPos spacePositions mines shuffle,
      p ∉ spacePositions → p ∉ mines ∧ p ∉ startNeighbourhood startPos := by
    intro p hp hnp
    rcases (mem_generate_mines_list hsh).mp hp with hmem | ⟨_, hm, hnb, _⟩
    · exact absurd hmem hnp
    · exact ⟨hm, hnb⟩
  refine ⟨hfresh, ?_⟩
  intro r hr
  rw [Option.mem_def] at hr
  have h1 : ∀ p, (fun _ : Pos => (0 : ℤ)) p = -1 ↔ p ∈ (∅ : Finset Pos) := by simp
  have h2 : ∀ p, p ∉ (∅ : Finset Pos) →
      (fun _ : Pos => (0 : ℤ)) p =
        (((∅ : Finset Pos).filter
          fun m => p ∈ space_get_adjacent_tiles nRows nCols (fun _ => -2) m).card : ℤ) := by
    simp
  obtain ⟨m1, _m2, _m3, _m4⟩ := generateBoardGo_inv
    (space_get_adjacent_tiles nRows nCols (fun _ => -2)) minecount
    minePositions ∅ (fun _ => 0) 0 h1 h2 (by simp) (b0, mines, k) hr0
  obtain ⟨a1, a2, a3, a4, _a5⟩ := spacePhaseGo_inv spaceCount b0 _ ∅ b0
    (by simp) (by simp) (by simp) (by simp) r hr
  refine ⟨?_, a1, ?_, a4⟩
  · rw [generate_board_space, hr0]
    dsimp only
    rw [hr]
  · intro p hp
    have hge := a2 p hp
    refine ⟨hge, a3 p hp, ?_⟩
    intro hmem
    have hbm : b0 p = -1 := (m1 p).mpr hmem
    omega

/-- Witness for C5 at a concrete 4×4 instance with two mines and one
space: both passes succeed and the space pass places exactly one
space. -/
theorem generate_board_space_second_pass_witness :
    ((spacePhaseGo 1
        ((spaceCandidates 4 4 (0, 0) []
            ((generateBoardGo (space_get_adjacent_tiles 4 4 (fun _ => -2)) 2
                [(3, 0), (3, 2)] ∅ (fun _ => 0) 0).getD (fun _ => 0, ∅, 0)).2.1 id).drop
          ((generateBoardGo (space_get_adjacent_tiles 4 4 (fun _ => -2)) 2
              [(3, 0), (3, 2)] ∅ (fun _ => 0) 0).getD (fun _ => 0, ∅, 0)).2.2) ∅
        ((generateBoardGo (space_get_adjacent_tiles 4 4 (fun _ => -2)) 2
            [(3, 0), (3, 2)] ∅ (fun _ => 0) 0).getD (fun _ => 0, ∅, 0)).1).getD
      (fun _ => 0, ∅)).2.card = 1 := by
  have hs0 : (generateBoardGo (space_get_adjacent_tiles 4 4 (fun _ => -2)) 2
      [(3, 0), (3, 2)] ∅ (fun _ => 0) 0).isSome = true := by decide
  have hs1 : (spacePhaseGo 1
      ((spaceCandidates 4 4 (0, 0) []
          ((generateBoardGo (space_get_adjacent_tiles 4 4 (fun _ => -2)) 2
              [(3, 0), (3, 2)] ∅ (fun _ => 0) 0).getD (fun _ => 0, ∅, 0)).2.1 id).drop
        ((generateBoardGo (space_get_adjacent_tiles 4 4 (fun _ => -2)) 2
            [(3, 0), (3, 2)] ∅ (fun _ => 0) 0).getD (fun _ => 0, ∅, 0)).2.2) ∅
      ((generateBoardGo (space_get_adjacent_tiles 4 4 (fun _ => -2)) 2
          [(3, 0), (3, 2)] ∅ (fun _ => 0) 0).getD (fun _ => 0, ∅, 0)).1).isSome = true := by
    decide
  obtain ⟨-, h2⟩ := generate_board_space_second_pass 4 4 2 1 (0, 0) [(3, 0), (3, 2)] [] id
    (fun l => List.Perm.refl l) _ (getD_mem hs0 (fun _ => 0, ∅, 0))
  obtain ⟨-, hcard, -, -⟩ := h2 _ (getD_mem hs1 (fun _ => 0, ∅))
  exact hcard

lemma mem_get_orthogonal_adj {nRows nCols : ℕ} {p q : Pos} :
    q ∈ get_orthogonal_adj nRows nCols p ↔
      (∃ d ∈ orthogonalDirections, q = (p.1 + d.1, p.2 + d.2)) ∧
        inBounds nRows nCols q = true := by
  simp only [get_orthogonal_adj, List.mem_toFinset, List.mem_filter, List.mem_map]
  constructor
  · rintro ⟨⟨d, hd, rfl⟩, hb⟩
    exact ⟨⟨d, hd, rfl⟩, hb⟩
  · rintro ⟨⟨d, hd, rfl⟩, hb⟩
    exact ⟨⟨d, hd, rfl⟩, hb⟩

lemma not_self_mem_orth {nRows nCols : ℕ} {p : Pos} :
    p ∉ get_orthogonal_adj nRows nCols p := by
  intro h
  rcases mem_get_orthogonal_adj.mp h with ⟨⟨d, hd, heq⟩, _⟩
  obtain ⟨p1, p2⟩ := p
  fin_cases hd <;>
    · dsimp only at heq
      rw [Prod.mk.injEq] at heq
      omega

lemma orth_inBounds {nRows nCols : ℕ} {p q : Pos}
    (h : q ∈ get_orthogonal_adj nRows nCols p) : inBounds nRows nCols q = true :=
  (mem_get_orthogonal_adj.mp h).2

lemma orth_symm {nRows nCols : ℕ} {p q : Pos}
    (hp : inBounds nRows nCols p = true) (h : q ∈ get_orthogonal_adj nRows nCols p) :
    p ∈ get_orthogonal_adj nRows nCols q := by
  rcases mem_get_orthogonal_adj.mp h with ⟨⟨d, hd, rfl⟩, _⟩
  refine mem_get_orthogonal_adj.mpr ⟨⟨(-d.1, -d.2), ?_, ?_⟩, hp⟩
  · fin_cases hd <;> decide
  · obtain ⟨p1, p2⟩ := p
    simp only [Prod.mk.injEq]
    constructor <;> ring

/-- A draw by `give_random_tile` is the sentinel or a member of the
selection set. -/
lemma give_random_tile_cases (pick : ℕ → Finset Pos → Pos)
    (hpick : ∀ n s, s.Nonempty → pick n s ∈ s) (n : ℕ) (s : Finset Pos) :
    give_random_tile pick n s = ((-1 : ℤ), (-1 : ℤ)) ∨ give_random_tile pick n s ∈ s := by
  rw [give_random_tile]
  by_cases h : s = ∅
  · rw [if_pos h]
    exact Or.inl rfl
  · rw [if_neg h]
    exact Or.inr (hpick n s (Finset.nonempty_iff_ne_empty.mpr h))

/-- A successful inner retry loop of the chain generator returns a first
mine drawn from the admissible selection set and a second mine
orthogonally adjacent to the first, outside the exclusion set. -/
lemma chainInner_some (pick : ℕ → Finset Pos → Pos)
    (hpick : ∀ n s, s.Nonempty → pick n s ∈ s) (nRows nCols : ℕ)
    (selectFrom exclusions : Finset Pos) :
    ∀ (fuel : ℕ) (m1 m2 : Pos) (locSafes : Finset Pos) (n : ℕ)
      (r : Pos × Pos × Finset Pos × ℕ),
      (m2 = ((-1 : ℤ), (-1 : ℤ)) ∨ m1 = ((-1 : ℤ), (-1 : ℤ))) →
      chainInner pick nRows nCols selectFrom exclusions fuel m1 m2 locSafes n = some r →
      r.1 ∈ selectFrom ∧ r.2.1 ∈ get_orthogonal_adj nRows nCols r.1 ∧ r.2.1 ∉ exclusions := by
  intro fuel
  induction fuel with
  | zero =>
    intro m1 m2 locSafes n r _ hr
    rw [chainInner] at hr
    exact Option.noConfusion hr
  | succ fuel ih =>
    intro m1 m2 locSafes n r hcond hr
    rw [chainInner, if_pos hcond] at hr
    set L := insert m2 (insert m1 locSafes) with hL
    set m1n := give_random_tile pick n (selectFrom \ L) with hm1n
    set m2n := give_random_tile pick (n + 1)
      ((get_orthogonal_adj nRows nCols m1n \ exclusions) \ L) with hm2n
    by_cases hcond2 : m2n = ((-1 : ℤ), (-1 : ℤ)) ∨ m1n = ((-1 : ℤ), (-1 : ℤ))
    · exact ih m1n m2n L (n + 2) r hcond2 hr
    · push_neg at hcond2
      cases fuel with
      | zero =>
        rw [chainInner] at hr
        exact Option.noConfusion hr
      | succ fuel2 =>
        rw [chainInner] at hr
        rw [if_neg ?_] at hr
        · cases hr
          refine ⟨?_, ?_, ?_⟩
          · rcases give_random_tile_cases pick hpick n (selectFrom \ L) with hs | hs
            · exact absurd (hm1n.trans hs) hcond2.2
            · exact (Finset.mem_sdiff.mp (hm1n ▸ hs)).1
          · rcases give_random_tile_cases pick hpick (n + 1)
                ((get_orthogonal_adj nRows nCols m1n \ exclusions) \ L) with hs | hs
            · exact absurd (hm2n.trans hs) hcond2.1
            · exact (Finset.mem_sdiff.mp
                (Finset.mem_sdiff.mp (hm2n ▸ hs)).1).1
          · rcases give_random_tile_cases pick hpick (n + 1)
                ((get_orthogonal_adj nRows nCols m1n \ exclusions) \ L) with hs | hs
            · exact absurd (hm2n.trans hs) hcond2.1
            · exact (Finset.mem_sdiff.mp
                (Finset.mem_sdiff.mp (hm2n ▸ hs)).1).2
        · push_neg
          exact hcond2

/-- Pair-placement invariant of the chain outer loop: every mine is
in-bounds, its orthogonal neighbourhood is marked safe, and it is
orthogonally adjacent to exactly one other mine. -/
lemma chainOuter_inv (pick : ℕ → Finset Pos → Pos)
    (hpick : ∀ n s, s.Nonempty → pick n s ∈ s)
    (nRows nCols minecount innerFuel : ℕ) (minePos : Finset Pos)
    (hmp : ∀ p ∈ minePos, inBounds nRows nCols p = true) :
    ∀ (fuel : ℕ) (mines safes : Finset Pos) (b : BoardF) (n : ℕ),
      (∀ m ∈ mines, inBounds nRows nCols m = true) →
      (∀ m ∈ mines, get_orthogonal_adj nRows nCols m ⊆ safes) →
      (∀ m ∈ mines, (mines.filter fun q => q ∈ get_orthogonal_adj nRows nCols m).card = 1) →
      ∀ r : BoardF × Finset Pos,
        chainOuter pick nRows nCols minecount innerFuel minePos fuel mines safes b n =
          some r →
        ∀ m ∈ r.2, (r.2.filter fun q => q ∈ get_orthogonal_adj nRows nCols m).card = 1 := by
  intro fuel
  induction fuel with
  | zero =>
    intro mines safes b n _ _ _ r hr
    rw [chainOuter] at hr
    exact Option.noConfusion hr
  | succ fuel ih =>
    intro mines safes b n hB hS hQ r hr
    rw [chainOuter] at hr
    by_cases hM : minecount ≤ mines.card
    · rw [if_pos hM] at hr
      cases hr
      exact hQ
    · rw [if_neg hM] at hr
      simp only [] at hr
      cases hin : chainInner pick nRows nCols (minePos \ (mines ∪ safes)) (mines ∪ safes)
          innerFuel ((-1 : ℤ), (-1 : ℤ)) ((-1 : ℤ), (-1 : ℤ)) ∅ n with
      | none => rw [hin] at hr; exact Option.noConfusion hr
      | some q =>
        obtain ⟨m1, m2, locSafes, n2⟩ := q
        rw [hin] at hr
        dsimp only at hr
        obtain ⟨hq1, hq2, hq3⟩ := chainInner_some pick hpick nRows nCols
          (minePos \ (mines ∪ safes)) (mines ∪ safes) innerFuel
          ((-1 : ℤ), (-1 : ℤ)) ((-1 : ℤ), (-1 : ℤ)) ∅ n (m1, m2, locSafes, n2)
          (Or.inl rfl) hin
        dsimp only at hq1 hq2 hq3
        rw [Finset.mem_sdiff, Finset.mem_union] at hq1
        push_neg at hq1
        have hm1pos := hq1.1
        have hm1mines := hq1.2.1
        have hm1safes := hq1.2.2
        rw [Finset.mem_union] at hq3
        push_neg at hq3
        obtain ⟨hm2mines, hm2safes⟩ := hq3
        have hm1B : inBounds nRows nCols m1 = true := hmp m1 hm1pos
        have hm2B : inBounds nRows nCols m2 = true := orth_inBounds hq2
        have hm1om2 : m1 ∈ get_orthogonal_adj nRows nCols m2 := orth_symm hm1B hq2
        have hne : m2 ≠ m1 := fun he => not_self_mem_orth (he ▸ hq2)
        have hBn : ∀ m ∈ insert m2 (insert m1 mines), inBounds nRows nCols m = true := by
          intro m hm
          rcases Finset.mem_insert.mp hm with rfl | hm
          · exact hm2B
          · rcases Finset.mem_insert.mp hm with rfl | hm
            · exact hm1B
            · exact hB m hm
        have hSn : ∀ m ∈ insert m2 (insert m1 mines),
            get_orthogonal_adj nRows nCols m ⊆
              ((safes ∪ locSafes) ∪ get_orthogonal_adj nRows nCols m1) ∪
                get_orthogonal_adj nRows nCols m2 := by
          intro m hm
          rcases Finset.mem_insert.mp hm with rfl | hm
          · exact Finset.subset_union_right
          · rcases Finset.mem_insert.mp hm with rfl | hm
            · exact Finset.subset_union_right.trans Finset.subset_union_left
            · exact (hS m hm).trans
                (Finset.subset_union_left.trans
                  (Finset.subset_union_left.trans Finset.subset_union_left))
        have hnewold : ∀ m ∈ mines, m1 ∉ get_orthogonal_adj nRows nCols m ∧
            m2 ∉ get_orthogonal_adj nRows nCols m := by
          intro m hm
          exact ⟨fun hmem => hm1safes (hS m hm hmem),
            fun hmem => hm2safes (hS m hm hmem)⟩
        have holdnew : ∀ m ∈ mines, m ∉ get_orthogonal_adj nRows nCols m1 ∧
            m ∉ get_orthogonal_adj nRows nCols m2 := by
          intro m hm
          constructor
          · intro hmem
            exact (hnewold m hm).1 (orth_symm hm1B hmem)
          · intro hmem
            exact (hnewold m hm).2 (orth_symm hm2B hmem)
        have hQn : ∀ m ∈ insert m2 (insert m1 mines),
            ((insert m2 (insert m1 mines)).filter
              fun a => a ∈ get_orthogonal_adj nRows nCols m).card = 1 := by
          intro m hm
          rcases Finset.mem_insert.mp hm with hcase | hm2'
          · rw [hcase]
            have hset : ((insert m2 (insert m1 mines)).filter
                fun a => a ∈ get_orthogonal_adj nRows nCols m2) = {m1} := by
              ext a
              simp only [Finset.mem_filter, Finset.mem_insert, Finset.mem_singleton]
              constructor
              · rintro ⟨rfl | rfl | ha, hadj⟩
                · exact absurd hadj not_self_mem_orth
                · rfl
                · exact absurd hadj (holdnew a ha).2
              · rintro rfl
                exact ⟨Or.inr (Or.inl rfl), hm1om2⟩
            rw [hset, Finset.card_singleton]
          · rcases Finset.mem_insert.mp hm2' with hcase | hmold
            · rw [hcase]
              have hset : ((insert m2 (insert m1 mines)).filter
                  fun a => a ∈ get_orthogonal_adj nRows nCols m1) = {m2} := by
                ext a
                simp only [Finset.mem_filter, Finset.mem_insert, Finset.mem_singleton]
                constructor
                · rintro ⟨rfl | rfl | ha, hadj⟩
                  · rfl
                  · exact absurd hadj not_self_mem_orth
                  · exact absurd hadj (holdnew a ha).1
                · rintro rfl
                  exact ⟨Or.inl rfl, hq2⟩
              rw [hset, Finset.card_singleton]
            · have hset : ((insert m2 (insert m1 mines)).filter
                  fun a => a ∈ get_orthogonal_adj nRows nCols m) =
                  mines.filter fun a => a ∈ get_orthogonal_adj nRows nCols m := by
                rw [Finset.filter_insert, Finset.filter_insert]
                rw [if_neg (hnewold m hmold).2, if_neg (hnewold m hmold).1]
              rw [hset]
              exact hQ m hmold
        exact ih (insert m2 (insert m1 mines)) _ _ n2 hBn hSn hQn r hr

/-- Claim C3: every board produced by `ChainBoardGenerator._generate_board`
has each mine orthogonally adjacent to exactly one other mine; the
unique partner is the mine it was paired with, so mines of distinct
pairs are never orthogonally adjacent. -/
theorem chain_generate_board_pairing (pick : ℕ → Finset Pos → Pos)
    (hpick : ∀ n s, s.Nonempty → pick n s ∈ s)
    (nRows nCols minecount innerFuel outerFuel : ℕ) (startPos : Pos)
    (minePos : Finset Pos)
    (hmp : ∀ p ∈ minePos, inBounds nRows nCols p = true) :
    ∀ r ∈ chain_generate_board pick nRows nCols minecount innerFuel outerFuel startPos
        minePos,
      ∀ m ∈ r.2, (r.2.filter fun q => q ∈ get_orthogonal_adj nRows nCols m).card = 1 := by
  intro r hr
  rw [Option.mem_def, chain_generate_board] at hr
  exact chainOuter_inv pick hpick nRows nCols minecount innerFuel minePos hmp outerFuel
    ∅ _ _ 0 (by simp) (by simp) (by simp) r hr

lemma pickDefault_mem : ∀ (n : ℕ) (s : Finset Pos), s.Nonempty → pickDefault n s ∈ s := by
  intro n s hs
  rw [pickDefault, pickLex, dif_pos hs]
  obtain ⟨p, hp, he⟩ := Finset.mem_image.mp
    ((s.image (toLex : Pos → ℤ ×ₗ ℤ)).min'_mem (hs.image _))
  rw [← he]
  exact hp

/-- Witness for C3 at a concrete 4×4 instance: the chain board exists
and the mine `(3, 0)` of the result has exactly one orthogonally
adjacent mine. -/
theorem chain_generate_board_pairing_witness :
    (((chain_generate_board pickDefault 4 4 2 4 4 (0, 0) {(3, 0), (3, 1)}).getD
        (fun _ => 0, ∅)).2.filter
      fun q => q ∈ get_orthogonal_adj 4 4 ((3 : ℤ), (0 : ℤ))).card = 1 := by
  have hs : (chain_generate_board pickDefault 4 4 2 4 4 (0, 0) {(3, 0), (3, 1)}).isSome =
      true := by decide
  exact chain_generate_board_pairing pickDefault pickDefault_mem 4 4 2 4 4 (0, 0)
    {(3, 0), (3, 1)} (by decide) _ (getD_mem hs (fun _ => 0, ∅)) ((3 : ℤ), (0 : ℤ))
    (by decide)

lemma check_neighbour_covered_iff {nRows nCols : ℕ} {p : Pos} {b : BoardF} :
    check_neighbour_covered nRows nCols p b = true ↔
      ∃ d ∈ solverDirections, inBounds nRows nCols (p.1 + d.1, p.2 + d.2) = true ∧
        b (p.1 + d.1, p.2 + d.2) = -2 := by
  simp only [check_neighbour_covered, List.any_eq_true, Bool.and_eq_true, decide_eq_true_eq]

lemma mem_get_covered_tiles {nRows nCols : ℕ} {b : BoardF} {q : Pos} :
    q ∈ get_covered_tiles nRows nCols b ↔ inBounds nRows nCols q = true ∧ b q = -2 := by
  simp only [get_covered_tiles, List.mem_toFinset, List.mem_filter, decide_eq_true_eq,
    mem_cellsList]

/-- Every border tile returned by `get_border_tiles` has a covered
neighbour. -/
lemma get_border_tiles_covered {nRows nCols : ℕ} {b : BoardF}
    {newSafeSet oldBorders : Finset Pos} {p : Pos}
    (h : p ∈ get_border_tiles nRows nCols b newSafeSet oldBorders) :
    check_neighbour_covered nRows nCols p b = true := by
  simp only [get_border_tiles, Finset.mem_sdiff, Finset.mem_union, Finset.mem_filter] at h
  obtain ⟨hm, hnr⟩ := h
  by_cases hc : check_neighbour_covered nRows nCols p b = true
  · exact hc
  · rcases hm with hold | hadd
    · exact absurd ⟨hold, fun he => hc he⟩ hnr
    · exact absurd hadd.2 hc

/-- Claim C6 (with the reachability hypothesis that the border set is
nonempty, which holds whenever `_build_mat` is invoked by
`_find_progress`): the matrix built by `_build_mat` carries the global
mine-budget row appended exactly when the variable set equals the set of
all covered (`-2`) tiles of the board. -/
theorem build_mat_minecount_row (spaceMode : Bool) (nRows nCols minecount : ℕ)
    (b : BoardF) (newSafeSet oldBorders : Finset Pos)
    (hne : (get_border_tiles nRows nCols b newSafeSet oldBorders).Nonempty) :
    build_mat nRows nCols minecount
        (build_var_dict spaceMode nRows nCols
          (get_border_tiles nRows nCols b newSafeSet oldBorders) b)
        (build_var_list nRows nCols
          (build_var_dict spaceMode nRows nCols
            (get_border_tiles nRows nCols b newSafeSet oldBorders) b)) b =
      build_mat_rows nRows nCols
        (build_var_dict spaceMode nRows nCols
          (get_border_tiles nRows nCols b newSafeSet oldBorders) b)
        (build_var_list nRows nCols
          (build_var_dict spaceMode nRows nCols
            (get_border_tiles nRows nCols b newSafeSet oldBorders) b)) b ++
      [minecountRow nRows nCols minecount
        (build_var_list nRows nCols
          (build_var_dict spaceMode nRows nCols
            (get_border_tiles nRows nCols b newSafeSet oldBorders) b)) b] ↔
    get_covered_tiles nRows nCols b =
      (build_var_list nRows nCols
        (build_var_dict spaceMode nRows nCols
          (get_border_tiles nRows nCols b newSafeSet oldBorders) b)).toFinset := by
  obtain ⟨p, hp⟩ := hne
  obtain ⟨d, _hd, hdb, hdc⟩ := check_neighbour_covered_iff.mp (get_border_tiles_covered hp)
  have hcovne : (get_covered_tiles nRows nCols b).Nonempty :=
    ⟨(p.1 + d.1, p.2 + d.2), mem_get_covered_tiles.mpr ⟨hdb, hdc⟩⟩
  set vd := build_var_dict spaceMode nRows nCols
    (get_border_tiles nRows nCols b newSafeSet oldBorders) b with hvd
  set vl := build_var_list nRows nCols vd with hvl
  by_cases hcov : get_covered_tiles nRows nCols b = vl.toFinset
  · have hvlne : vl ≠ [] := by
      intro hnil
      rw [hnil] at hcov
      rw [List.toFinset_nil] at hcov
      exact Finset.not_nonempty_empty (hcov ▸ hcovne)
    rw [build_mat, if_pos ⟨hcov, hvlne⟩]
    simp only [iff_true_intro hcov, iff_true]
  · rw [build_mat, if_neg (fun hand => hcov hand.1)]
    constructor
    · intro heq
      have := congrArg List.length heq
      rw [List.length_append, List.length_singleton] at this
      omega
    · intro heq
      exact absurd heq hcov

/-- Witness for C6 on a concrete 1×3 board with one revealed clue. -/
theorem build_mat_minecount_row_witness :
    build_mat 1 3 1
        (build_var_dict false 1 3
          (get_border_tiles 1 3
            (fun q => if q = ((0 : ℤ), (0 : ℤ)) then 1 else -2) ∅ {(0, 0)})
          (fun q => if q = ((0 : ℤ), (0 : ℤ)) then 1 else -2))
        (build_var_list 1 3
          (build_var_dict false 1 3
            (get_border_tiles 1 3
              (fun q => if q = ((0 : ℤ), (0 : ℤ)) then 1 else -2) ∅ {(0, 0)})
            (fun q => if q = ((0 : ℤ), (0 : ℤ)) then 1 else -2)))
        (fun q => if q = ((0 : ℤ), (0 : ℤ)) then 1 else -2) =
      build_mat_rows 1 3
        (build_var_dict false 1 3
          (get_border_tiles 1 3
            (fun q => if q = ((0 : ℤ), (0 : ℤ)) then 1 else -2) ∅ {(0, 0)})
          (fun q => if q = ((0 : ℤ), (0 : ℤ)) then 1 else -2))
        (build_var_list 1 3
          (build_var_dict false 1 3
            (get_border_tiles 1 3
              (fun q => if q = ((0 : ℤ), (0 : ℤ)) then 1 else -2) ∅ {(0, 0)})
            (fun q => if q = ((0 : ℤ), (0 : ℤ)) then 1 else -2)))
        (fun q => if q = ((0 : ℤ), (0 : ℤ)) then 1 else -2) ++
      [minecountRow 1 3 1
        (build_var_list 1 3
          (build_var_dict false 1 3
            (get_border_tiles 1 3
              (fun q => if q = ((0 : ℤ), (0 : ℤ)) then 1 else -2) ∅ {(0, 0)})
            (fun q => if q = ((0 : ℤ), (0 : ℤ)) then 1 else -2)))
        (fun q => if q = ((0 : ℤ), (0 : ℤ)) then 1 else -2)] ↔
    get_covered_tiles 1 3 (fun q => if q = ((0 : ℤ), (0 : ℤ)) then 1 else -2) =
      (build_var_list 1 3
        (build_var_dict false 1 3
          (get_border_tiles 1 3
            (fun q => if q = ((0 : ℤ), (0 : ℤ)) then 1 else -2) ∅ {(0, 0)})
          (fun q => if q = ((0 : ℤ), (0 : ℤ)) then 1 else -2))).toFinset :=
  build_mat_minecount_row false 1 3 1
    (fun q => if q = ((0 : ℤ), (0 : ℤ)) then 1 else -2) ∅ {(0, 0)} (by decide)

/-- Tiles entering the lower-bound set of a row are known mines or not
yet safe. -/
lemma rowLowers_not_safe {varList : List Pos} {mines safes : Finset Pos} {row : List ℚ}
    (hd : Disjoint mines safes) {v : Pos}
    (hv : v ∈ ((rowLowers varList mines safes row).map fun t => varAt varList t.1).toFinset) :
    v ∉ safes := by
  rw [List.mem_toFinset, List.mem_map] at hv
  obtain ⟨t, ht, rfl⟩ := hv
  rcases List.mem_filter.mp ht with ⟨_, hp⟩
  rw [decide_eq_true_eq] at hp
  rcases hp with ⟨_, hns⟩ | hm
  · exact hns
  · exact Finset.disjoint_left.mp hd hm

/-- Tiles entering the upper-bound set of a row are known mines or not
yet safe. -/
lemma rowUppers_not_safe {varList : List Pos} {mines safes : Finset Pos} {row : List ℚ}
    (hd : Disjoint mines safes) {v : Pos}
    (hv : v ∈ ((rowUppers varList mines safes row).map fun t => varAt varList t.1).toFinset) :
    v ∉ safes := by
  rw [List.mem_toFinset, List.mem_map] at hv
  obtain ⟨t, ht, rfl⟩ := hv
  rcases List.mem_filter.mp ht with ⟨_, hp⟩
  rw [decide_eq_true_eq] at hp
  rcases hp with ⟨_, hns⟩ | hm
  · exact hns
  · exact Finset.disjoint_left.mp hd hm

/-- One row of the bound analysis keeps the discovered mines and safes
disjoint. -/
lemma analyseRow_disjoint (varList : List Pos) {mines safes : Finset Pos} (row : List ℚ)
    (hd : Disjoint mines safes) :
    Disjoint (analyseRow varList (mines, safes) row).1
      (analyseRow varList (mines, safes) row).2 := by
  rw [analyseRow]
  by_cases hz : (row.all fun x => decide (x = 0)) = true
  · rw [if_pos hz]
    exact hd
  · rw [if_neg hz]
    dsimp only
    by_cases hlb : rowResult row = rowLB varList (mines, safes).1 (mines, safes).2 row
    · rw [if_pos hlb]
      rw [Finset.disjoint_left]
      intro a ha hsa
      rcases Finset.mem_union.mp hsa with hold | hnew
      · rcases Finset.mem_union.mp ha with holdm | hnewm
        · exact Finset.disjoint_left.mp hd holdm hold
        · exact rowLowers_not_safe hd hnewm hold
      · rw [List.mem_toFinset, List.mem_filter] at hnew
        have := hnew.2
        rw [Bool.not_eq_true', decide_eq_false_iff_not] at this
        exact this ha
    · rw [if_neg hlb]
      by_cases hub : rowResult row = rowUB varList (mines, safes).1 (mines, safes).2 row
      · rw [if_pos hub]
        rw [Finset.disjoint_left]
        intro a ha hsa
        rcases Finset.mem_union.mp hsa with hold | hnew
        · rcases Finset.mem_union.mp ha with holdm | hnewm
          · exact Finset.disjoint_left.mp hd holdm hold
          · exact rowUppers_not_safe hd hnewm hold
        · rw [List.mem_toFinset, List.mem_filter] at hnew
          have := hnew.2
          rw [Bool.not_eq_true', decide_eq_false_iff_not] at this
          exact this ha
      · rw [if_neg hub]
        exact hd

/-- The whole bottom-up analysis keeps mines and safes disjoint. -/
lemma analyse_matrix_disjoint (mat : List (List ℚ)) (varList : List Pos) :
    Disjoint (analyse_matrix mat varList).1 (analyse_matrix mat varList).2 := by
  rw [analyse_matrix]
  generalize mat.reverse = l
  induction l generalizing mat with
  | nil => simp
  | cons row l ih =>
    rw [List.foldl_cons]
    have hstep : ∀ st : Finset Pos × Finset Pos, Disjoint st.1 st.2 →
        ∀ l2 : List (List ℚ),
        Disjoint (l2.foldl (analyseRow varList) st).1 (l2.foldl (analyseRow varList) st).2 := by
      intro st hst l2
      induction l2 generalizing st with
      | nil => exact hst
      | cons r2 l2 ih2 =>
        rw [List.foldl_cons]
        exact ih2 (analyseRow varList st r2) (analyseRow_disjoint varList r2 hst)
    exact hstep (analyseRow varList (∅, ∅) row)
      (analyseRow_disjoint varList row (by simp)) l

lemma rowTerms_getElem {row : List ℚ} {i : ℕ} {c : ℚ} (h : (i, c) ∈ rowTerms row) :
    row.dropLast[i]? = some c ∧ c ≠ 0 := by
  obtain ⟨henum, hc⟩ := List.mem_filter.mp h
  rw [decide_eq_true_eq] at hc
  exact ⟨List.mk_mem_enum_iff_getElem?.mp henum, hc⟩

lemma rowTerms_val {row : List ℚ} {i : ℕ} {c c2 : ℚ} (h : (i, c) ∈ rowTerms row)
    (h2 : (i, c2) ∈ rowTerms row) : c = c2 := by
  have e1 := (rowTerms_getElem h).1
  have e2 := (rowTerms_getElem h2).1
  rw [e1] at e2
  exact Option.some.inj e2

lemma rowTerms_lt {row : List ℚ} {i : ℕ} {c : ℚ} (h : (i, c) ∈ rowTerms row) :
    i < row.dropLast.length := by
  have e1 := (rowTerms_getElem h).1
  rw [List.getElem?_eq_some] at e1
  exact e1.1

lemma rowTerms_not_all_zero {row : List ℚ} {i : ℕ} {c : ℚ} (h : (i, c) ∈ rowTerms row) :
    (row.all fun x => decide (x = 0)) = false := by
  obtain ⟨he, hc⟩ := rowTerms_getElem h
  rw [List.getElem?_eq_some] at he
  obtain ⟨hlt, he2⟩ := he
  have hmem : c ∈ row.dropLast := he2 ▸ List.getElem_mem hlt
  have hmemr : c ∈ row := (List.dropLast_sublist row).subset hmem
  cases hall : row.all fun x => decide (x = 0) with
  | false => rfl
  | true =>
    have := List.all_eq_true.mp hall c hmemr
    rw [decide_eq_true_eq] at this
    exact absurd this hc

/-- Index injectivity of the variable map on row terms, under a
duplicate-free variable list long enough for the row. -/
lemma rowTerms_index_inj {varList : List Pos} {row : List ℚ} {i j : ℕ} {c c2 : ℚ}
    (hnd : varList.Nodup) (hlen : row.length ≤ varList.length + 1)
    (hi : (i, c) ∈ rowTerms row) (hj : (j, c2) ∈ rowTerms row)
    (hv : varAt varList i = varAt varList j) : i = j := by
  have hi2 : i < varList.length := by
    have := rowTerms_lt hi
    rw [List.length_dropLast] at this
    omega
  have hj2 : j < varList.length := by
    have := rowTerms_lt hj
    rw [List.length_dropLast] at this
    omega
  rw [varAt, varAt, List.getD_eq_getElem _ _ hi2, List.getD_eq_getElem _ _ hj2] at hv
  exact (hnd.getElem_inj_iff).mp hv

/-- Over any list of nonzero terms, the lower-bound sum never exceeds
the upper-bound sum, with equality only when every term's variable is
already classified. -/
lemma termSum_le (varList : List Pos) (mines safes : Finset Pos) :
    ∀ l : List (ℕ × ℚ), (∀ t ∈ l, t.2 ≠ 0) →
      ((l.filter fun t =>
          (t.2 < 0 ∧ varAt varList t.1 ∉ safes) ∨ varAt varList t.1 ∈ mines).map
        fun t => t.2).sum ≤
      ((l.filter fun t =>
          (0 < t.2 ∧ varAt varList t.1 ∉ safes) ∨ varAt varList t.1 ∈ mines).map
        fun t => t.2).sum ∧
      (((l.filter fun t =>
          (t.2 < 0 ∧ varAt varList t.1 ∉ safes) ∨ varAt varList t.1 ∈ mines).map
        fun t => t.2).sum =
        ((l.filter fun t =>
          (0 < t.2 ∧ varAt varList t.1 ∉ safes) ∨ varAt varList t.1 ∈ mines).map
        fun t => t.2).sum →
        ∀ t ∈ l, varAt varList t.1 ∈ mines ∨ varAt varList t.1 ∈ safes) := by
  intro l
  induction l with
  | nil =>
    intro _
    exact ⟨le_refl _, fun _ t ht => absurd ht (List.not_mem_nil t)⟩
  | cons t l ih =>
    intro hnz
    have hnzt : t.2 ≠ 0 := hnz t (List.mem_cons_self _ _)
    obtain ⟨ihle, iheq⟩ := ih fun u hu => hnz u (List.mem_cons_of_mem _ hu)
    simp only [List.filter_cons]
    by_cases hm : varAt varList t.1 ∈ mines
    · rw [if_pos (decide_eq_true (Or.inr hm)), if_pos (decide_eq_true (Or.inr hm))]
      simp only [List.map_cons, List.sum_cons]
      constructor
      · linarith
      · intro heq u hu
        rcases List.mem_cons.mp hu with rfl | hul
        · exact Or.inl hm
        · exact iheq (by linarith) u hul
    · by_cases hs : varAt varList t.1 ∈ safes
      · have hL : ¬((t.2 < 0 ∧ varAt varList t.1 ∉ safes) ∨ varAt varList t.1 ∈ mines) := by
          rintro (⟨_, hns⟩ | hmm)
          · exact hns hs
          · exact hm hmm
        have hU : ¬((0 < t.2 ∧ varAt varList t.1 ∉ safes) ∨ varAt varList t.1 ∈ mines) := by
          rintro (⟨_, hns⟩ | hmm)
          · exact hns hs
          · exact hm hmm
        rw [if_neg (by simpa using hL), if_neg (by simpa using hU)]
        refine ⟨ihle, ?_⟩
        intro heq u hu
        rcases List.mem_cons.mp hu with rfl | hul
        · exact Or.inr hs
        · exact iheq heq u hul
      · rcases lt_or_gt_of_ne hnzt with hneg | hpos
        · have hL : (t.2 < 0 ∧ varAt varList t.1 ∉ safes) ∨ varAt varList t.1 ∈ mines :=
            Or.inl ⟨hneg, hs⟩
          have hU : ¬((0 < t.2 ∧ varAt varList t.1 ∉ safes) ∨ varAt varList t.1 ∈ mines) := by
            rintro (⟨hpos2, _⟩ | hmm)
            · linarith
            · exact hm hmm
          rw [if_pos (decide_eq_true hL), if_neg (by simpa using hU)]
          simp only [List.map_cons, List.sum_cons]
          constructor
          · linarith
          · intro heq
            linarith
        · have hL : ¬((t.2 < 0 ∧ varAt varList t.1 ∉ safes) ∨ varAt varList t.1 ∈ mines) := by
            rintro (⟨hneg2, _⟩ | hmm)
            · linarith
            · exact hm hmm
          have hU : (0 < t.2 ∧ varAt varList t.1 ∉ safes) ∨ varAt varList t.1 ∈ mines :=
            Or.inl ⟨hpos, hs⟩
          rw [if_neg (by simpa using hL), if_pos (decide_eq_true hU)]
          simp only [List.map_cons, List.sum_cons]
          constructor
          · linarith
          · intro heq
            linarith

/-- Shape of one analysis row when the right-hand side meets the lower
bound. -/
lemma analyseRow_lb_eq (varList : List Pos) (mines safes : Finset Pos) (row : List ℚ)
    (hz : (row.all fun x => decide (x = 0)) = false)
    (hres : rowResult row = rowLB varList mines safes row) :
    analyseRow varList (mines, safes) row =
      (mines ∪ ((rowLowers varList mines safes row).map fun t => varAt varList t.1).toFinset,
       safes ∪ (((rowUppers varList mines safes row).map fun t => varAt varList t.1).filter
         fun v => !(decide (v ∈ mines ∪
           ((rowLowers varList mines safes row).map
             fun t => varAt varList t.1).toFinset))).toFinset) := by
  rw [analyseRow, if_neg (by simp [hz])]
  dsimp only
  rw [if_pos hres]

/-- Shape of one analysis row when the right-hand side meets the upper
bound only. -/
lemma analyseRow_ub_eq (varList : List Pos) (mines safes : Finset Pos) (row : List ℚ)
    (hz : (row.all fun x => decide (x = 0)) = false)
    (hres1 : ¬(rowResult row = rowLB varList mines safes row))
    (hres2 : rowResult row = rowUB varList mines safes row) :
    analyseRow varList (mines, safes) row =
      (mines ∪ ((rowUppers varList mines safes row).map fun t => varAt varList t.1).toFinset,
       safes ∪ (((rowLowers varList mines safes row).map fun t => varAt varList t.1).filter
         fun v => !(decide (v ∈ mines ∪
           ((rowUppers varList mines safes row).map
             fun t => varAt varList t.1).toFinset))).toFinset) := by
  rw [analyseRow, if_neg (by simp [hz])]
  dsimp only
  rw [if_neg hres1, if_pos hres2]

/-- Claim C7: `_analyse_matrix` processes rows bottom-up holding earlier
classifications fixed (embodied in the fold over the reversed matrix);
for a row whose right-hand side meets its lower bound, every unclassified
negative-coefficient variable becomes a mine and every unclassified
positive-coefficient variable becomes safe, symmetrically at the upper
bound; and the returned mine and safe sets are disjoint. -/
theorem analyse_matrix_bound_analysis (varList : List Pos) (mines safes : Finset Pos)
    (row : List ℚ) (hnd : varList.Nodup) (hlen : row.length ≤ varList.length + 1)
    (hd : Disjoint mines safes) :
    Disjoint (analyseRow varList (mines, safes) row).1
      (analyseRow varList (mines, safes) row).2 ∧
    (rowResult row = rowLB varList mines safes row →
      ∀ i c, (i, c) ∈ rowTerms row → varAt varList i ∉ mines → varAt varList i ∉ safes →
        (c < 0 → varAt varList i ∈ (analyseRow varList (mines, safes) row).1) ∧
        (0 < c → varAt varList i ∈ (analyseRow varList (mines, safes) row).2)) ∧
    (rowResult row = rowUB varList mines safes row →
      ∀ i c, (i, c) ∈ rowTerms row → varAt varList i ∉ mines → varAt varList i ∉ safes →
        (0 < c → varAt varList i ∈ (analyseRow varList (mines, safes) row).1) ∧
        (c < 0 → varAt varList i ∈ (analyseRow varList (mines, safes) row).2)) ∧
    ∀ mat : List (List ℚ),
      Disjoint (analyse_matrix mat varList).1 (analyse_matrix mat varList).2 := by
  have hnotin : ∀ i c, (i, c) ∈ rowTerms row → varAt varList i ∉ mines → 0 < c →
      varAt varList i ∉
        mines ∪ ((rowLowers varList mines safes row).map fun t => varAt varList t.1).toFinset := by
    intro i c ht hm hc hmem
    rcases Finset.mem_union.mp hmem with h | h
    · exact hm h
    · rw [List.mem_toFinset, List.mem_map] at h
      obtain ⟨⟨j, c2⟩, hjl, hvj⟩ := h
      obtain ⟨hjt, hjp⟩ := List.mem_filter.mp hjl
      rw [decide_eq_true_eq] at hjp
      have hc2 : c2 < 0 := by
        rcases hjp with ⟨hneg, _⟩ | hjm
        · exact hneg
        · exact absurd (hvj ▸ hjm) hm
      have hij : i = j := rowTerms_index_inj hnd hlen ht hjt hvj.symm
      subst hij
      have := rowTerms_val ht hjt
      linarith
  have hnotin2 : ∀ i c, (i, c) ∈ rowTerms row → varAt varList i ∉ mines → c < 0 →
      varAt varList i ∉
        mines ∪ ((rowUppers varList mines safes row).map fun t => varAt varList t.1).toFinset := by
    intro i c ht hm hc hmem
    rcases Finset.mem_union.mp hmem with h | h
    · exact hm h
    · rw [List.mem_toFinset, List.mem_map] at h
      obtain ⟨⟨j, c2⟩, hjl, hvj⟩ := h
      obtain ⟨hjt, hjp⟩ := List.mem_filter.mp hjl
      rw [decide_eq_true_eq] at hjp
      have hc2 : 0 < c2 := by
        rcases hjp with ⟨hpos, _⟩ | hjm
        · exact hpos
        · exact absurd (hvj ▸ hjm) hm
      have hij : i = j := rowTerms_index_inj hnd hlen ht hjt hvj.symm
      subst hij
      have := rowTerms_val ht hjt
      linarith
  refine ⟨analyseRow_disjoint varList row hd, ?_, ?_, fun mat => analyse_matrix_disjoint mat varList⟩
  · intro hres i c ht hm hs
    have hz := rowTerms_not_all_zero ht
    rw [analyseRow_lb_eq varList mines safes row hz hres]
    constructor
    · intro hc
      refine Finset.mem_union.mpr (Or.inr ?_)
      rw [List.mem_toFinset, List.mem_map]
      exact ⟨(i, c), List.mem_filter.mpr ⟨ht, decide_eq_true (Or.inl ⟨hc, hs⟩)⟩, rfl⟩
    · intro hc
      refine Finset.mem_union.mpr (Or.inr ?_)
      rw [List.mem_toFinset, List.mem_filter]
      refine ⟨List.mem_map.mpr
        ⟨(i, c), List.mem_filter.mpr ⟨ht, decide_eq_true (Or.inl ⟨hc, hs⟩)⟩, rfl⟩, ?_⟩
      simpa using hnotin i c ht hm hc
  · intro hres i c ht hm hs
    by_cases hres1 : rowResult row = rowLB varList mines safes row
    · have hLU : rowLB varList mines safes row = rowUB varList mines safes row :=
        hres1.symm.trans hres
      rw [rowLB, rowUB, rowLowers, rowUppers] at hLU
      have hall := (termSum_le varList mines safes (rowTerms row)
        (fun t hterm => by
          obtain ⟨i2, c2⟩ := t
          exact (rowTerms_getElem hterm).2)).2 hLU (i, c) ht
      rcases hall with h | h
      · exact absurd h hm
      · exact absurd h hs
    · have hz := rowTerms_not_all_zero ht
      rw [analyseRow_ub_eq varList mines safes row hz hres1 hres]
      constructor
      · intro hc
        refine Finset.mem_union.mpr (Or.inr ?_)
        rw [List.mem_toFinset, List.mem_map]
        exact ⟨(i, c), List.mem_filter.mpr ⟨ht, decide_eq_true (Or.inl ⟨hc, hs⟩)⟩, rfl⟩
      · intro hc
        refine Finset.mem_union.mpr (Or.inr ?_)
        rw [List.mem_toFinset, List.mem_filter]
        refine ⟨List.mem_map.mpr
          ⟨(i, c), List.mem_filter.mpr ⟨ht, decide_eq_true (Or.inl ⟨hc, hs⟩)⟩, rfl⟩, ?_⟩
        simpa using hnotin2 i c ht hm hc

/-- Witness for C7 at a concrete row `x0 - x1 = -1` with two distinct
variables. -/
theorem analyse_matrix_bound_analysis_witness :
    Disjoint (analyseRow [(0, 0), (0, 1)] (∅, ∅) [1, -1, -1]).1
      (analyseRow [(0, 0), (0, 1)] (∅, ∅) [1, -1, -1]).2 ∧
    (rowResult [1, -1, -1] = rowLB [(0, 0), (0, 1)] ∅ ∅ [1, -1, -1] →
      ∀ i c, (i, c) ∈ rowTerms [1, -1, -1] → varAt [(0, 0), (0, 1)] i ∉ (∅ : Finset Pos) →
        varAt [(0, 0), (0, 1)] i ∉ (∅ : Finset Pos) →
        (c < 0 → varAt [(0, 0), (0, 1)] i ∈ (analyseRow [(0, 0), (0, 1)] (∅, ∅) [1, -1, -1]).1) ∧
        (0 < c → varAt [(0, 0), (0, 1)] i ∈ (analyseRow [(0, 0), (0, 1)] (∅, ∅) [1, -1, -1]).2)) ∧
    (rowResult [1, -1, -1] = rowUB [(0, 0), (0, 1)] ∅ ∅ [1, -1, -1] →
      ∀ i c, (i, c) ∈ rowTerms [1, -1, -1] → varAt [(0, 0), (0, 1)] i ∉ (∅ : Finset Pos) →
        varAt [(0, 0), (0, 1)] i ∉ (∅ : Finset Pos) →
        (0 < c → varAt [(0, 0), (0, 1)] i ∈ (analyseRow [(0, 0), (0, 1)] (∅, ∅) [1, -1, -1]).1) ∧
        (c < 0 → varAt [(0, 0), (0, 1)] i ∈ (analyseRow [(0, 0), (0, 1)] (∅, ∅) [1, -1, -1]).2)) ∧
    ∀ mat : List (List ℚ),
      Disjoint (analyse_matrix mat [(0, 0), (0, 1)]).1 (analyse_matrix mat [(0, 0), (0, 1)]).2 :=
  analyse_matrix_bound_analysis [(0, 0), (0, 1)] ∅ ∅ [1, -1, -1]
    (by decide) (by decide) (by simp)

/-- The shared solver loop never writes the answer board: its first
result component keeps the `answer` field of the incoming state. -/
lemma solveLoop_answer (spaceMode : Bool) (nRows nCols minecount : ℕ) :
    ∀ (fuel : ℕ) (s : SolveState) (newSafes oldBorders mines : Finset Pos),
      (solveLoop spaceMode nRows nCols minecount fuel s newSafes oldBorders mines).1.answer =
        s.answer := by
  intro fuel
  induction fuel with
  | zero =>
    intro s newSafes oldBorders mines
    rw [solveLoop]
  | succ fuel ih =>
    intro s newSafes oldBorders mines
    rw [solveLoop]
    by_cases hc : check_for_covered_tile nRows nCols s.test = true
    · rw [if_pos hc]
      dsimp only
      split <;> (try split) <;> simp [ih, applySafes, applyMines]
    · rw [if_neg hc]

/-- Claim C10: the three solver entry points (`LogicalSolver.solve`,
`SpaceBoardLogicalSolver.solve_spaces`, `PuzzleSolver.puzzle_solve`)
leave the caller's answer board unchanged on return, solvable or not:
all deductions are written to the internal test board (and the
trivial-resolution pass to its own local copy).  In this embedding every
in-place write of the source is an explicit update of the corresponding
`SolveState` field, and the theorem states that the `answer` field of
the final state is the input board. -/
theorem solver_entry_points_preserve_answer :
    (∀ (nRows nCols minecount : ℕ) (startPos : Pos) (fuel : ℕ) (answerBoard : BoardF),
      (solve nRows nCols minecount startPos fuel answerBoard).1.answer = answerBoard) ∧
    (∀ (nRows nCols minecount : ℕ) (startPos : Pos) (spaces : Finset Pos) (fuel : ℕ)
        (answerBoard : BoardF),
      (solve_spaces nRows nCols minecount startPos spaces fuel answerBoard).1.answer =
        answerBoard) ∧
    (∀ (nRows nCols minecount : ℕ) (revealedTiles spaces : Finset Pos) (fuel : ℕ)
        (answerBoard : BoardF),
      (puzzle_solve nRows nCols minecount revealedTiles spaces fuel answerBoard).1.answer =
        answerBoard) := by
  refine ⟨?_, ?_, ?_⟩
  · intro nRows nCols minecount startPos fuel answerBoard
    rw [solve]
    try dsimp only
    split
    · exact solveLoop_answer false nRows nCols minecount fuel _ _ _ _
    · exact solveLoop_answer false nRows nCols minecount fuel _ _ _ _
  · intro nRows nCols minecount startPos spaces fuel answerBoard
    rw [solve_spaces]
    try dsimp only
    split
    · exact solveLoop_answer true nRows nCols minecount fuel _ _ _ _
    · exact solveLoop_answer true nRows nCols minecount fuel _ _ _ _
  · intro nRows nCols minecount revealedTiles spaces fuel answerBoard
    rw [puzzle_solve]
    try dsimp only
    split
    · exact solveLoop_answer true nRows nCols minecount fuel _ _ _ _
    · exact solveLoop_answer true nRows nCols minecount fuel _ _ _ _

lemma freshOutside_not_mem : ∀ (n : ℕ) (s : Finset Pos), freshOutside n s ∉ s := by
  intro n s hmem
  have h3 := @Finset.le_sup ℕ Pos _ _ s (fun p : Pos => p.1.toNat) (freshOutside n s) hmem
  simp only [freshOutside] at h3
  omega

/-- The reveal top-up loop returns a set of exactly the target
cardinality whenever it starts at or below the target. -/
lemma topUpReveal_card (fresh : ℕ → Finset Pos → Pos)
    (hfresh : ∀ n s, fresh n s ∉ s) (target : ℕ)
    (mines spaces alwaysExclude : Finset Pos) :
    ∀ (fuel : ℕ) (revealed : Finset Pos) (n : ℕ),
      revealed.card ≤ target →
      ∀ r ∈ topUpReveal fresh target mines spaces alwaysExclude fuel revealed n,
        r.card = target := by
  intro fuel
  induction fuel with
  | zero =>
    intro revealed n hle r hr
    rw [Option.mem_def, topUpReveal] at hr
    by_cases hT : target ≤ revealed.card
    · rw [if_pos hT] at hr
      cases hr
      omega
    · rw [if_neg hT] at hr
      exact Option.noConfusion hr
  | succ fuel ih =>
    intro revealed n hle r hr
    rw [Option.mem_def, topUpReveal] at hr
    by_cases hT : target ≤ revealed.card
    · rw [if_pos hT] at hr
      cases hr
      omega
    · rw [if_neg hT] at hr
      have hnm : fresh n (((revealed ∪ mines) ∪ alwaysExclude) ∪ spaces) ∉ revealed := by
        intro hmem
        exact hfresh n (((revealed ∪ mines) ∪ alwaysExclude) ∪ spaces)
          (Finset.mem_union_left _ (Finset.mem_union_left _ (Finset.mem_union_left _ hmem)))
      refine ih _ (n + 1) ?_ r hr
      rw [Finset.card_insert_of_not_mem hnm]
      omega

/-- Counterexample to claim C4: the source cap
`min(len(str((d+1)*W*H)) * d, W*H // 5)` uses the decimal digit count,
not the ceiling logarithm; at `W = 10, H = 5, d = 1` the code's cap is
`3` while the claim's `T` is `2`, and a concrete top-up run returns a
revealed set of 3 tiles, not 2. -/
theorem tiles_required_counterexample :
    tiles_required 10 5 1 = 3 ∧
    claimTilesCap 10 5 1 = 2 ∧
    (topUpReveal (fun n _ => ((2 : ℤ), 2 + (n : ℤ))) (tiles_required 10 5 1) ∅ ∅
        (alwaysExcludeFrame 5 10) 5 ∅ 0).map Finset.card =
      some (tiles_required 10 5 1) ∧
    tiles_required 10 5 1 ≠ claimTilesCap 10 5 1 := by
  have h2 : claimTilesCap 10 5 1 = 2 := by norm_num [claimTilesCap, Nat.clog]
  have h3 : tiles_required 10 5 1 = 3 := by decide
  refine ⟨h3, h2, by decide, ?_⟩
  omega

/-- Amended claim C4: on success the returned revealed set has
cardinality exactly `tiles_required` (the source's digit-count cap): the
final top-up loop of `generate_no_guess_board`, entered with at most
that many revealed tiles, draws fresh non-excluded tiles until the set
holds exactly `tiles_required` tiles. -/
theorem tiles_required_top_up (nCols nRows difficulty : ℕ)
    (fresh : ℕ → Finset Pos → Pos) (hfresh : ∀ n s, fresh n s ∉ s)
    (mines spaces alwaysExclude : Finset Pos) (fuel : ℕ) (revealed : Finset Pos) (n : ℕ)
    (hle : revealed.card ≤ tiles_required nCols nRows difficulty) :
    ∀ r ∈ topUpReveal fresh (tiles_required nCols nRows difficulty) mines spaces
        alwaysExclude fuel revealed n,
      r.card = tiles_required nCols nRows difficulty :=
  topUpReveal_card fresh hfresh (tiles_required nCols nRows difficulty)
    mines spaces alwaysExclude fuel revealed n hle

/-- Witness for the amended claim C4 at the concrete `10×5`, difficulty
`1` instance: the top-up run succeeds and reveals exactly
`tiles_required 10 5 1` tiles. -/
theorem tiles_required_top_up_witness :
    ((topUpReveal freshOutside (tiles_required 10 5 1) ∅ ∅
        (alwaysExcludeFrame 5 10) 9 ∅ 0).getD ∅).card = tiles_required 10 5 1 := by
  have hs : (topUpReveal freshOutside (tiles_required 10 5 1) ∅ ∅
      (alwaysExcludeFrame 5 10) 9 ∅ 0).isSome = true := by decide
  exact tiles_required_top_up 10 5 1 freshOutside freshOutside_not_mem ∅ ∅
    (alwaysExcludeFrame 5 10) 9 ∅ 0 (by decide) _ (getD_mem hs ∅)

end Minecells
